import Mathlib

/-!
Verification of the d3-gallery chart components: a shallow embedding of
`src/app/gantt-chart/gantt-chart.component.ts` and
`src/app/time-chart/time-chart.component.ts`.

Conventions of the embedding:
* Time values (`Date`) are modeled as integers; `new Date` applied to an
  already-normalized time value is the identity (`toDate`).
* `uuidv4()` is modeled by an ever-increasing counter threaded through the
  operations: draw `c` yields key `c` and the next state `c + 1`; the
  reserved root key (`rootKEY = uuidv4()` drawn at construction) is modeled
  as the distinguished value `0`, with subsequent draws starting at `1`.
  What matters for the program is exactly what the model keeps: every draw
  is distinct from every earlier draw and from the root key.
* JavaScript `null`/`undefined` child pointers are `Option.none`; a present
  array is `some list`.  `if (node.data.data)` is truthy exactly on `some`.
* In-place mutation of the record tree is made explicit: each operation
  returns the updated tree alongside its other results.  Object aliasing
  (which record objects are shared) is modeled separately by a heap-based
  embedding (`RecH` and friends) where records live at explicit addresses.
-/

/-- A Gantt data record (interface `SerieGantt` of the source): display name,
start/end times, the optional reconciliation key, the visible children
pointer `data`, and the hidden children pointer `_data`. -/
inductive SerieGantt : Type where
  | mk (name : String) (start : Int) («end» : Int) (key : Option Nat)
       (data : Option (List SerieGantt)) (_data : Option (List SerieGantt))

namespace SerieGantt

/-- Field accessor: `name`. -/
def name : SerieGantt → String
  | .mk n _ _ _ _ _ => n

/-- Field accessor: `start`. -/
def start : SerieGantt → Int
  | .mk _ s _ _ _ _ => s

/-- Field accessor: `end`. -/
def «end» : SerieGantt → Int
  | .mk _ _ e _ _ _ => e

/-- Field accessor: `key`. -/
def key : SerieGantt → Option Nat
  | .mk _ _ _ k _ _ => k

/-- Field accessor: `data` (the visible children pointer). -/
def data : SerieGantt → Option (List SerieGantt)
  | .mk _ _ _ _ d _ => d

/-- Field accessor: `_data` (the hidden children pointer). -/
def hdata : SerieGantt → Option (List SerieGantt)
  | .mk _ _ _ _ _ h => h

end SerieGantt

/-- The component's reserved root key: `private rootKEY = uuidv4()`.  In the
counter model of `uuidv4` this is the distinguished value `0`; all later
draws are `≥ 1`. -/
def rootKEY : Nat := 0

/-- `new Date(x)` on an already-normalized time value: the identity in the
integer time model. -/
def toDate (t : Int) : Int := t

/-- A flattened node (interface `SerieGanttNode`): the `d3.hierarchy` node
depth and height plus the (mutated) record it references.  The redundant
`parent`/`children` links of the d3 node mirror the record tree and are not
carried separately. -/
structure SGNode where
  depth : Nat
  height : Nat
  data : SerieGantt

mutual
/-- Height of a record in the visible tree (`d3.hierarchy` `node.height`):
greatest downward distance to a leaf through the `data` pointers. -/
def heightOf : SerieGantt → Nat
  | .mk _ _ _ _ none _ => 0
  | .mk _ _ _ _ (some kids) _ => heightL kids

/-- Height helper over a child list: `max` over `heightOf child + 1`. -/
def heightL : List SerieGantt → Nat
  | [] => 0
  | x :: xs => max (heightOf x + 1) (heightL xs)
end

mutual
/-- One flatten pass over a subtree, mirroring `preProcess`:
`d3.hierarchy(series, serie => serie.data).eachBefore(...)` collects nodes in
pre-order; the list is then filtered by `node.data.key !== this.rootKEY` and
each surviving node's record is mutated in place (`key = uuidv4()`,
`start`/`end` converted through `new Date`).  The traversal, the filter and
the per-node mutation are fused into one recursive pass; `d` is the
`d3.hierarchy` depth of `s`, `c` the next fresh key.  Returns the updated
subtree, the emitted nodes (whose `data` snapshots the record after all
mutations of the pass, as the live references do), and the next fresh key. -/
def ppNode (d : Nat) (s : SerieGantt) (c : Nat) : SerieGantt × List SGNode × Nat :=
  match s with
  | .mk n st en k dat hd =>
    if k = some rootKEY then
      match dat with
      | none => (.mk n st en k none hd, [], c)
      | some kids =>
        let r := ppList (d+1) kids c
        (.mk n st en k (some r.1) hd, r.2.1, r.2.2)
    else
      match dat with
      | none =>
        let s' : SerieGantt := .mk n (toDate st) (toDate en) (some c) none hd
        (s', [⟨d, heightOf s', s'⟩], c+1)
      | some kids =>
        let r := ppList (d+1) kids (c+1)
        let s' : SerieGantt := .mk n (toDate st) (toDate en) (some c) (some r.1) hd
        (s', ⟨d, heightOf s', s'⟩ :: r.2.1, r.2.2)

/-- Flatten pass over a sibling list (see `ppNode`). -/
def ppList (d : Nat) (l : List SerieGantt) (c : Nat) : List SerieGantt × List SGNode × Nat :=
  match l with
  | [] => ([], [], c)
  | x :: xs =>
    let r1 := ppNode d x c
    let r2 := ppList d xs r1.2.2
    (r1.1 :: r2.1, r1.2.1 ++ r2.2.1, r2.2.2)
end

/-- Modelled from the spec: the `clone` helper imported from `./clone` is not
part of the repository snapshot under `src/`.  Per the spec's ownership rules
(§3: the reconciler "must not mutate records"; §6: caller input "fully
replaces prior state") it is modeled as a deep copy of the caller-supplied
records.  At the level of values a deep copy is the identity; the aliasing
content (fresh objects, so later in-place mutation cannot touch the caller's
records) is modeled by `cloneA` in the heap embedding below. -/
def clone (series : List SerieGantt) : List SerieGantt := series

/-- The Gantt component state the claims are about: the synthetic-root tree
`serieSource`, the flattened `seriesNodes`, and the `uuidv4` counter. -/
structure GanttState where
  serieSource : SerieGantt
  seriesNodes : List SGNode
  uuidCnt : Nat

/-- Run one flatten pass from a root tree and package the component state:
`this.seriesNodes = this.preProcess(this.serieSource)` (the pass mutates
`serieSource` in place through the node references, hence the updated tree
is stored back). -/
def stateOf (t : SerieGantt) (c : Nat) : GanttState :=
  let r := ppNode 0 t c
  { serieSource := r.1, seriesNodes := r.2.1, uuidCnt := r.2.2 }

/-- The `series` input setter: wrap the cloned caller records in the
synthetic root (`name: 'root'`, `key: rootKEY`, `start`/`end` null — the
root record's times are never read, so null is modeled as `0`), then flatten.
`c` is the current `uuidv4` counter. -/
def setSeries (series : List SerieGantt) (c : Nat) : GanttState :=
  stateOf (.mk "root" 0 0 (some rootKEY) (some (clone series)) none) c

/-- The collapse/expand toggle applied to one record, mirroring `click`:
`if (node.data.data) { _data = data; data = null } else { data = _data;
_data = null }`.  A present-but-empty array is truthy in JavaScript, hence
the match is on `some`/`none` only. -/
def toggleRec : SerieGantt → SerieGantt
  | .mk n st en k (some d) _ => .mk n st en k none (some d)
  | .mk n st en k none hd => .mk n st en k hd none

/-- Apply `toggleRec` to the record at visible path `p` (indices into the
`data` child lists, starting at the tree's root).  The clicked d3 node holds
a live reference to this record; mutating it rewrites the tree here.  An
out-of-tree path leaves the tree unchanged (the UI only produces valid
paths). -/
def toggleAt (s : SerieGantt) : List Nat → SerieGantt
  | [] => toggleRec s
  | i :: p =>
    match s with
    | .mk n st en k (some kids) hd =>
      match kids[i]? with
      | some ki => .mk n st en k (some (kids.set i (toggleAt ki p))) hd
      | none => .mk n st en k (some kids) hd
    | .mk n st en k none hd => .mk n st en k none hd

/-- Read the record at visible path `p`. -/
def getAt (s : SerieGantt) : List Nat → Option SerieGantt
  | [] => some s
  | i :: p =>
    match s with
    | .mk _ _ _ _ (some kids) _ =>
      match kids[i]? with
      | some ki => getAt ki p
      | none => none
    | .mk _ _ _ _ none _ => none

/-- The `click` handler on the bar of the visible node at path `p`: toggle
that record's child pointers, then re-run the flatten pass over
`serieSource` and rebuild the component state. -/
def click (st : GanttState) (p : List Nat) : GanttState :=
  stateOf (toggleAt st.serieSource p) st.uuidCnt

/-- Projection of a flattened node list to the observable record content:
name, start, end and recorded depth of each emitted node, in order. -/
def flatProj (ns : List SGNode) : List (String × Int × Int × Nat) :=
  ns.map (fun nd => (nd.data.name, nd.data.start, nd.data.«end», nd.depth))

/-- Keys of a flattened node list, in order. -/
def flatKeys (ns : List SGNode) : List (Option Nat) :=
  ns.map (fun nd => nd.data.key)

mutual
/-- Specification-side flatten, written from the spec's words (§4.2, §8.3):
pre-order traversal over the tree reachable through the visible `data`
pointers, parent before children, children in given order, recording each
record's name, start, end and its depth (distance from the traversal
root). -/
def specFlatten (d : Nat) : SerieGantt → List (String × Int × Int × Nat)
  | .mk n st en _ none _ => [(n, st, en, d)]
  | .mk n st en _ (some kids) _ => (n, st, en, d) :: specFlattenL (d+1) kids

/-- Specification-side flatten over a sibling list. -/
def specFlattenL (d : Nat) : List SerieGantt → List (String × Int × Int × Nat)
  | [] => []
  | x :: xs => specFlatten d x ++ specFlattenL d xs
end

/-- Specification-side flatten of a root-wrapped tree: the synthetic root is
excluded, its children are traversed at depth 1 (their distance from the
root). -/
def specRootFlatten (w : SerieGantt) : List (String × Int × Int × Nat) :=
  specFlattenL 1 (w.data.getD [])

mutual
/-- No record of the tree (visible or hidden) carries the reserved root key.
The reserved key is drawn by `uuidv4` at component construction and is never
visible to consumers (§3), so caller data satisfies this. -/
def keyFreeB : SerieGantt → Bool
  | .mk _ _ _ k d hd => (k != some rootKEY) && keyFreeO d && keyFreeO hd

/-- `keyFreeB` through an optional child list. -/
def keyFreeO : Option (List SerieGantt) → Bool
  | none => true
  | some l => keyFreeL l

/-- `keyFreeB` over a sibling list. -/
def keyFreeL : List SerieGantt → Bool
  | [] => true
  | x :: xs => keyFreeB x && keyFreeL xs
end

/-- A root-wrapped tree as built by the `series` setter and maintained by the
passes: the top record carries the reserved key, everything below (visible or
hidden) is free of it. -/
def rootKeyFreeB (w : SerieGantt) : Bool :=
  (w.key == some rootKEY) && keyFreeO w.data && keyFreeO w.hdata

mutual
/-- Only the visible child pointers are populated: every `_data` pointer in
the tree is absent (the caller input contract, §6). -/
def visOnlyB : SerieGantt → Bool
  | .mk _ _ _ _ d none => visOnlyO d
  | .mk _ _ _ _ _ (some _) => false

/-- `visOnlyB` through an optional child list. -/
def visOnlyO : Option (List SerieGantt) → Bool
  | none => true
  | some l => visOnlyL l

/-- `visOnlyB` over a sibling list. -/
def visOnlyL : List SerieGantt → Bool
  | [] => true
  | x :: xs => visOnlyB x && visOnlyL xs
end

mutual
/-- Erase every `key` field of a tree (both visible and hidden subtrees).
Two trees with the same erasure differ at most in their keys; one flatten
pass changes a tree only up to this erasure. -/
def eraseKeys : SerieGantt → SerieGantt
  | .mk n st en _ d hd => .mk n st en none (eraseKeysO d) (eraseKeysO hd)

/-- `eraseKeys` through an optional child list. -/
def eraseKeysO : Option (List SerieGantt) → Option (List SerieGantt)
  | none => none
  | some l => some (eraseKeysL l)

/-- `eraseKeys` over a sibling list. -/
def eraseKeysL : List SerieGantt → List SerieGantt
  | [] => []
  | x :: xs => eraseKeys x :: eraseKeysL xs
end

/-! ## Time-series extents (time chart) and the Gantt extent -/

/-- A normalized time-series point (interface `Serie` of the time chart):
`{ date: Date, price: number }`, with both fields in the integer model. -/
structure Serie where
  date : Int
  price : Int

/-- One step of `d3.extent`'s scan: the accumulator is `none` until the
first value, then carries the running `[min, max]`. -/
def extentStep (acc : Option (Int × Int)) (v : Int) : Option (Int × Int) :=
  match acc with
  | none => some (v, v)
  | some (mn, mx) => some (if v < mn then v else mn, if mx < v then v else mx)

/-- `d3.extent`: single scan for the minimum and maximum; on an empty input
both components are undefined (`none`). -/
def extent (xs : List Int) : Option Int × Option Int :=
  match xs.foldl extentStep none with
  | none => (none, none)
  | some (mn, mx) => (some mn, some mx)

/-- `d3.min`: single scan for the minimum; undefined (`none`) on empty. -/
def d3min (xs : List Int) : Option Int :=
  xs.foldl (fun acc v =>
    match acc with
    | none => some v
    | some m => some (if v < m then v else m)) none

/-- `d3.max`: single scan for the maximum; undefined (`none`) on empty. -/
def d3max (xs : List Int) : Option Int :=
  xs.foldl (fun acc v =>
    match acc with
    | none => some v
    | some m => some (if m < v then v else m)) none

namespace TimeChart

/-- `computeExtent` of the time chart:
`xExtent = d3.extent(dates)`, `yExtent = d3.extent(prices)`. -/
def computeExtent (series : List Serie) :
    (Option Int × Option Int) × (Option Int × Option Int) :=
  (extent (series.map Serie.date), extent (series.map Serie.price))

end TimeChart

namespace Gantt

/-- `computeExtent` of the Gantt chart:
`xExtent = [d3.min(starts), d3.max(ends)]` over the flattened visible
nodes. -/
def computeExtent (ns : List SGNode) : Option Int × Option Int :=
  (d3min (ns.map (fun nd => nd.data.start)),
   d3max (ns.map (fun nd => nd.data.«end»)))

end Gantt

/-! ## Canvas geometry, axis descriptors, zoom -/

/-- The four-sided padding input. -/
structure Padding where
  top : Int
  right : Int
  bottom : Int
  left : Int
deriving DecidableEq

/-- `canvasWidth`: viewbox width minus left/right padding. -/
def canvasWidth (width : Int) (p : Padding) : Int :=
  width - (p.left + p.right)

/-- `canvasHeight`: viewbox height minus top/bottom padding. -/
def canvasHeight (height : Int) (p : Padding) : Int :=
  height - (p.top + p.bottom)

/-- Axis orientation (`d3.axisTop` / `axisBottom` / `axisLeft` /
`axisRight`). -/
inductive AxisOrient : Type where
  | top
  | bottom
  | left
  | right
deriving DecidableEq

/-- A tick label format: the d3 default, a fixed `d3.utcFormat` pattern, or
the Gantt y-axis lookup resolving a node key to its record's display name. -/
inductive TickFmt : Type where
  | dflt
  | utc (fmt : String)
  | byNodeName
deriving DecidableEq

/-- An axis generator's configuration, as set up by the `d3.axis*` builder
chain.  `d3.axis` defaults: inner and outer tick size 6, automatic tick
count, default format. -/
structure AxisCfg where
  orient : AxisOrient
  tickSizeInner : Int
  tickSizeOuter : Int
  ticksCount : Option Nat
  format : TickFmt
deriving DecidableEq

/-- `d3.axisTop/Bottom/Left/Right(scale)`: a fresh axis generator with the
library defaults. -/
def d3axis (o : AxisOrient) : AxisCfg :=
  { orient := o, tickSizeInner := 6, tickSizeOuter := 6,
    ticksCount := none, format := .dflt }

namespace AxisCfg

/-- `axis.tickSize(v)`: sets both the inner and the outer tick size. -/
def withTickSize (a : AxisCfg) (v : Int) : AxisCfg :=
  { a with tickSizeInner := v, tickSizeOuter := v }

/-- `axis.tickSizeOuter(v)`: sets only the outer tick size. -/
def withTickSizeOuter (a : AxisCfg) (v : Int) : AxisCfg :=
  { a with tickSizeOuter := v }

/-- `axis.ticks(count, fmt)`: sets the target tick count and the label
format. -/
def withTicks (a : AxisCfg) (n : Nat) (f : TickFmt) : AxisCfg :=
  { a with ticksCount := some n, format := f }

/-- `axis.tickFormat(f)`: sets the label format. -/
def withTickFormat (a : AxisCfg) (f : TickFmt) : AxisCfg :=
  { a with format := f }

end AxisCfg

namespace TimeChart

/-- The time chart's default padding input. -/
def padding : Padding := ⟨15, 20, 20, 55⟩

/-- Time chart `computeAxis`, y part:
`d3.axisLeft(yScale).tickSize(-canvasWidth)`. -/
def yAxisCfg (width : Int) (p : Padding) : AxisCfg :=
  (d3axis .left).withTickSize (-(canvasWidth width p))

/-- Time chart `computeAxis`, x part:
`d3.axisBottom(xScale).tickSizeOuter(-canvasHeight).ticks(12,
d3.utcFormat("%Y/%m"))`. -/
def xAxisCfg (height : Int) (p : Padding) : AxisCfg :=
  (((d3axis .bottom).withTickSizeOuter (-(canvasHeight height p))).withTicks
    12 (.utc "%Y/%m"))

end TimeChart

namespace Gantt

/-- The Gantt chart's default padding input. -/
def padding : Padding := ⟨15, 15, 15, 55⟩

/-- Gantt `viewBoxHeight`: derived as `seriesNodes.length * 40`, overriding
the height input. -/
def viewBoxHeight (n : Nat) : Int := (n : Int) * 40

/-- Gantt canvas height: the derived viewbox height minus top/bottom
padding, for `n` visible nodes. -/
def ganttCanvasHeight (n : Nat) (p : Padding) : Int :=
  canvasHeight (viewBoxHeight n) p

/-- Gantt `computeAxis`, y part: `d3.axisLeft(yScale).tickSize(-canvasWidth)
.tickFormat(d => seriesNodeMap[d].data.name)`. -/
def yAxisCfg (width : Int) (p : Padding) : AxisCfg :=
  ((d3axis .left).withTickSize (-(canvasWidth width p))).withTickFormat
    .byNodeName

/-- Gantt `computeAxis`, x part: `d3.axisTop(xScale).tickSizeOuter(0)
.tickSize(-canvasHeight)` — note `tickSize` is called last and resets both
tick sizes. -/
def xAxisCfg (n : Nat) (p : Padding) : AxisCfg :=
  ((d3axis .top).withTickSizeOuter 0).withTickSize (-(ganttCanvasHeight n p))

end Gantt

/-- A d3 zoom transform `{k, x, y}`; `transform.applyY(y) = y * k + y`. -/
structure ZoomTransform where
  k : Rat
  x : Rat
  y : Rat

/-- `transform.applyY`. -/
def applyY (t : ZoomTransform) (v : Rat) : Rat := t.k * v + t.y

/-- The configuration handed to `d3.zoom()` by `computeZoom`. -/
structure ZoomCfg where
  scaleExtent : Rat × Rat
  extent : (Rat × Rat) × (Rat × Rat)
  translateExtent : (Rat × Rat) × (Rat × Rat)
deriving DecidableEq

/-- The time chart state the gesture claims are about: the two scales (as
domain/range pairs), the axis configurations, and the inputs they are
derived from.  A scale is its `(domain, range)` data; ranges are pixel
values (rationals, as gesture transforms scale them continuously). -/
structure TimeState where
  width : Int
  height : Int
  pad : Padding
  series : List Serie
  xDomain : Option Int × Option Int
  xRange : Rat × Rat
  yDomain : Option Int × Option Int
  yRange : Rat × Rat
  xAxis : AxisCfg
  yAxis : AxisCfg

/-- The plot rectangle `[[0, 0], [canvasWidth, canvasHeight]]` used as both
the zoom extent and the translate extent. -/
def plotRect (s : TimeState) : (Rat × Rat) × (Rat × Rat) :=
  ((0, 0), ((canvasWidth s.width s.pad : Int), (canvasHeight s.height s.pad : Int)))

/-- `computeZoom`: `d3.zoom().scaleExtent([1, 4]).extent(extent)
.translateExtent(extent)` with `extent = [[0,0],[canvasWidth,
canvasHeight]]`; the `zoomed` handler is attached for gesture updates. -/
def computeZoom (s : TimeState) : ZoomCfg :=
  { scaleExtent := (1, 4), extent := plotRect s, translateExtent := plotRect s }

/-- The `zoomed` gesture handler: remap the y scale's pixel range by applying
the gesture transform to the two unclamped range endpoints
(`[canvasHeight, 0].map(d => event.transform.applyY(d))`), then recompute
the axis configurations (`computeAxis`) and re-render (rendering is a pure
consumer of this state and is not part of it). -/
def zoomed (t : ZoomTransform) (s : TimeState) : TimeState :=
  { s with
    yRange := (applyY t ((canvasHeight s.height s.pad : Int) : Rat), applyY t 0),
    yAxis := TimeChart.yAxisCfg s.width s.pad,
    xAxis := TimeChart.xAxisCfg s.height s.pad }

/-! ## Keyed reconciliation (`renderGantt`) -/

/-- A live visual element (an `svg rect` bar): its object identity
(allocation number) and the datum key it is bound to. -/
structure GElem where
  elemId : Nat
  key : Option Nat
deriving DecidableEq

/-- Create one fresh element per entering key, with consecutive fresh
identities (the `enter().append('rect')` part of the join). -/
def allocElems (fresh : Nat) : List (Option Nat) → List GElem
  | [] => []
  | k :: ks => ⟨fresh, k⟩ :: allocElems (fresh + 1) ks

/-- The d3 keyed data join of `renderGantt`:
`selectAll('rect').data(seriesNodes, node => node.data.key)` partitions the
live elements into the update selection (their key occurs in the new data —
kept and retargeted in place) and the exit selection (removed), and the new
keys without a matching element enter as freshly created elements.  Returns
the surviving element set and the next fresh identity. -/
def dataJoin (live : List GElem) (ks : List (Option Nat)) (fresh : Nat) :
    List GElem × Nat :=
  let upd := live.filter (fun e => decide (e.key ∈ ks))
  let enterKs := ks.filter (fun k => decide (∀ e ∈ live, e.key ≠ k))
  (upd ++ allocElems fresh enterKs, fresh + enterKs.length)

/-- `renderGantt` keyed reconciliation against the current flattened nodes,
keyed by `node.data.key`. -/
def renderGantt (live : List GElem) (ns : List SGNode) (fresh : Nat) :
    List GElem × Nat :=
  dataJoin live (flatKeys ns) fresh

/-! ## Heap embedding of the Gantt record tree (object aliasing) -/

/-- A Gantt record as a heap object: same fields as `SerieGantt`, but the
child pointers hold heap addresses instead of inline records. -/
structure RecH where
  name : String
  start : Int
  «end» : Int
  key : Option Nat
  data : Option (List Nat)
  hdata : Option (List Nat)

/-- The default heap record (reading an unallocated address — never happens
on the paths the component takes, but keeps the reads total). -/
def hDefault : RecH := ⟨"", 0, 0, none, none, none⟩

/-- Read the record at address `a`; a heap is an allocation-ordered list of
records, the address being the list index. -/
def readH (h : List RecH) (a : Nat) : RecH := h.getD a hDefault

/-- Mutate the record at address `a` in place. -/
def setRec (h : List RecH) (a : Nat) (f : RecH → RecH) : List RecH :=
  h.set a (f (readH h a))

/-- Size of an optional worklist, for the termination measure of the clone
pass. -/
def osize : Option (List Nat) → Nat
  | none => 0
  | some l => l.length

mutual
/-- Modelled from the spec: the deep-clone pass of the missing `./clone`
helper, on the heap.  Clones the records at addresses `l` and (recursively)
everything they point to, visible or hidden, allocating only fresh addresses
at the end of the heap; returns the extended heap and the addresses of the
copies.  `fuel` bounds the recursion depth (caller trees are finite). -/
def cloneA (fuel : Nat) (h : List RecH) (l : List Nat) : List RecH × List Nat :=
  match fuel, l with
  | _, [] => (h, [])
  | 0, _ :: _ => (h, [])
  | fuel + 1, a :: as =>
    let r := readH h a
    let pd := cloneO fuel h r.data
    let ph := cloneO fuel pd.1 r.hdata
    let addr := ph.1.length
    let h2 := ph.1 ++ [{ r with data := pd.2, hdata := ph.2 }]
    let rest := cloneA (fuel + 1) h2 as
    (rest.1, addr :: rest.2)
termination_by (fuel, l.length, 0)

/-- Clone one optional child-pointer list (absent stays absent). -/
def cloneO (fuel : Nat) (h : List RecH) (o : Option (List Nat)) :
    List RecH × Option (List Nat) :=
  match o with
  | none => (h, none)
  | some ds =>
    let q := cloneA fuel h ds
    (q.1, some q.2)
termination_by (fuel, osize o, 1)
end

/-- The flatten pass `preProcess` on the heap, over a worklist of sibling
addresses in pre-order: for each address, unless the record carries the
reserved root key, overwrite its `key` with a fresh draw and normalize its
`start`/`end` through `new Date`; then recurse into its visible children.
Only the records reachable through visible pointers are ever written.
`fuel` bounds the tree depth. -/
def ppHL (fuel : Nat) (h : List RecH) (l : List Nat) (c : Nat) : List RecH × Nat :=
  match fuel, l with
  | _, [] => (h, c)
  | 0, _ :: _ => (h, c)
  | fuel + 1, a :: as =>
    let r := readH h a
    let step : List RecH × Nat :=
      if r.key = some rootKEY then (h, c)
      else
        (setRec h a (fun q =>
          { q with key := some c, start := toDate q.start,
                   «end» := toDate q.«end» }), c + 1)
    let rec1 : List RecH × Nat :=
      match r.data with
      | none => step
      | some ds => ppHL fuel step.1 ds step.2
    ppHL (fuel + 1) rec1.1 as rec1.2
termination_by (fuel, l.length)

/-- The collapse/expand toggle on a heap record (see `toggleRec`). -/
def toggleRecH (r : RecH) : RecH :=
  match r.data with
  | some d => { r with data := none, hdata := some d }
  | none => { r with data := r.hdata, hdata := none }

/-- Resolve a visible path to the address of the clicked record, following
`data` pointers from the root address. -/
def resolveH (h : List RecH) (a : Nat) : List Nat → Option Nat
  | [] => some a
  | i :: p =>
    match (readH h a).data with
    | some ds =>
      match ds[i]? with
      | some b => resolveH h b p
      | none => none
    | none => none

/-- The `click` handler on the heap: toggle the clicked record in place,
then re-run the flatten pass from the synthetic root.  A path that resolves
to no record is a no-op (the UI only clicks rendered nodes). -/
def clickH (fuel : Nat) (h : List RecH) (rootA : Nat) (p : List Nat) (c : Nat) :
    List RecH × Nat :=
  match resolveH h rootA p with
  | none => (h, c)
  | some a => ppHL fuel (setRec h a toggleRecH) [rootA] c

/-- The `series` setter on the heap: deep-clone the caller's records
(addresses `l`), allocate the synthetic root wrapping the copies, and run
the initial flatten pass.  Returns the heap, the root's address and the
`uuidv4` counter. -/
def setSeriesH (fuel : Nat) (h0 : List RecH) (l : List Nat) (c : Nat) :
    List RecH × Nat × Nat :=
  let cl := cloneA fuel h0 l
  let rootA := cl.1.length
  let h1 := cl.1 ++ [⟨"root", 0, 0, some rootKEY, some cl.2, none⟩]
  let pp := ppHL fuel h1 [rootA] c
  (pp.1, rootA, pp.2)

/-- Run a sequence of clicks (each given by its visible path) against the
component's heap state. -/
def clicksH (fuel : Nat) : List RecH × Nat × Nat → List (List Nat) → List RecH × Nat × Nat
  | st, [] => st
  | (h, rootA, c), p :: ps =>
    let r := clickH fuel h rootA p c
    clicksH fuel (r.1, rootA, r.2) ps

/-- All child pointers of a heap record lie in `[n0, m)`. -/
def PtrsHi (r : RecH) (n0 m : Nat) : Prop :=
  (∀ b ∈ r.data.getD [], n0 ≤ b ∧ b < m) ∧ (∀ b ∈ r.hdata.getD [], n0 ≤ b ∧ b < m)

/-- Every record allocated at or above `n0` points only at or above `n0`
(and within the heap): the high region is closed under pointers. -/
def HiInv (h : List RecH) (n0 : Nat) : Prop :=
  ∀ i, n0 ≤ i → i < h.length → PtrsHi (readH h i) n0 h.length

/-! ## Concrete sample data (scenario §8.8 of the spec and friends) -/

/-- The child record B of the spec's Gantt scenario (`start=Jan2`, `end=Jan3`,
times as small integers). -/
def sampleB : SerieGantt := .mk "B" 2 3 none none none

/-- The top-level record A of the spec's Gantt scenario, with one child B. -/
def sampleA : SerieGantt := .mk "A" 1 5 none (some [sampleB]) none

/-- The root-wrapped two-node tree (what the `series` setter builds from
`[sampleA]`). -/
def sampleRoot : SerieGantt :=
  .mk "root" 0 0 (some rootKEY) (some [sampleA]) none

/-- A root wrapping a single childless record (for the no-children click). -/
def sampleLeafRoot : SerieGantt :=
  .mk "root" 0 0 (some rootKEY) (some [sampleB]) none

/-- Record A as it stands after the first flatten pass with counter 1:
key 1, child B with key 2. -/
def sampleA1 : SerieGantt :=
  .mk "A" 1 5 (some 1) (some [.mk "B" 2 3 (some 2) none none]) none

/-- Record B as it stands after the first flatten pass over
`sampleLeafRoot` with counter 1. -/
def sampleB1 : SerieGantt := .mk "B" 2 3 (some 1) none none

/-- A tiny time series. -/
def sampleSeries : List Serie := [⟨1, 100⟩, ⟨2, 50⟩]

/-- A tiny flattened node list. -/
def sampleNodes : List SGNode := [⟨1, 0, sampleB⟩]

/-! ## Theorems -/

theorem foldl_extentStep_some (l : List Int) (mn mx : Int) :
    l.foldl extentStep (some (mn, mx)) = some (l.foldl min mn, l.foldl max mx) := by
  induction l generalizing mn mx with
  | nil => rfl
  | cons v vs ih =>
    have h1 : (if v < mn then v else mn) = min mn v := by split <;> omega
    have h2 : (if mx < v then v else mx) = max mx v := by split <;> omega
    simp only [List.foldl_cons, extentStep, h1, h2, ih]

theorem foldl_min_le_init (l : List Int) (a : Int) : l.foldl min a ≤ a := by
  induction l generalizing a with
  | nil => exact le_rfl
  | cons x xs ih => exact le_trans (ih (min a x)) (min_le_left a x)

theorem foldl_min_le (l : List Int) (a v : Int) (hv : v ∈ l) : l.foldl min a ≤ v := by
  induction l generalizing a with
  | nil => cases hv
  | cons x xs ih =>
    rcases List.mem_cons.mp hv with h | h
    · subst h
      exact le_trans (foldl_min_le_init xs (min a v)) (min_le_right a v)
    · exact ih (min a x) h

theorem foldl_min_mem (l : List Int) (a : Int) :
    l.foldl min a = a ∨ l.foldl min a ∈ l := by
  induction l generalizing a with
  | nil => exact Or.inl rfl
  | cons x xs ih =>
    rcases ih (min a x) with h | h
    · rcases min_choice a x with h' | h'
      · exact Or.inl (by rw [List.foldl_cons, h, h'])
      · exact Or.inr (by rw [List.foldl_cons, h, h']; exact List.mem_cons_self x xs)
    · exact Or.inr (List.mem_cons_of_mem x h)

theorem le_foldl_max_init (l : List Int) (a : Int) : a ≤ l.foldl max a := by
  induction l generalizing a with
  | nil => exact le_rfl
  | cons x xs ih => exact le_trans (le_max_left a x) (ih (max a x))

theorem le_foldl_max (l : List Int) (a v : Int) (hv : v ∈ l) : v ≤ l.foldl max a := by
  induction l generalizing a with
  | nil => cases hv
  | cons x xs ih =>
    rcases List.mem_cons.mp hv with h | h
    · subst h
      exact le_trans (le_max_right a v) (le_foldl_max_init xs (max a v))
    · exact ih (max a x) h

theorem foldl_max_mem (l : List Int) (a : Int) :
    l.foldl max a = a ∨ l.foldl max a ∈ l := by
  induction l generalizing a with
  | nil => exact Or.inl rfl
  | cons x xs ih =>
    rcases ih (max a x) with h | h
    · rcases max_choice a x with h' | h'
      · exact Or.inl (by rw [List.foldl_cons, h, h'])
      · exact Or.inr (by rw [List.foldl_cons, h, h']; exact List.mem_cons_self x xs)
    · exact Or.inr (List.mem_cons_of_mem x h)

theorem extent_cons (x : Int) (xs : List Int) :
    extent (x :: xs) = (some (xs.foldl min x), some (xs.foldl max x)) := by
  simp only [extent, List.foldl_cons, extentStep, foldl_extentStep_some]

/-- `d3.extent` on a non-empty list returns the attained minimum and
maximum, in that order. -/
theorem extent_spec (xs : List Int) (h : xs ≠ []) :
    ∃ mn mx, extent xs = (some mn, some mx) ∧ mn ∈ xs ∧ mx ∈ xs ∧
      ∀ v ∈ xs, mn ≤ v ∧ v ≤ mx := by
  match xs, h with
  | x :: xs, _ =>
    refine ⟨xs.foldl min x, xs.foldl max x, extent_cons x xs, ?_, ?_, ?_⟩
    · rcases foldl_min_mem xs x with h | h
      · rw [h]; exact List.mem_cons_self x xs
      · exact List.mem_cons_of_mem x h
    · rcases foldl_max_mem xs x with h | h
      · rw [h]; exact List.mem_cons_self x xs
      · exact List.mem_cons_of_mem x h
    · intro v hv
      rcases List.mem_cons.mp hv with h | h
      · subst h
        exact ⟨foldl_min_le_init xs v, le_foldl_max_init xs v⟩
      · exact ⟨foldl_min_le xs x v h, le_foldl_max xs x v h⟩

theorem d3min_foldl (x : Int) (xs : List Int) :
    d3min (x :: xs) = some (xs.foldl min x) := by
  show xs.foldl _ (some x) = _
  induction xs generalizing x with
  | nil => rfl
  | cons v vs ih =>
    have h1 : (if v < x then v else x) = min x v := by split <;> omega
    simp only [List.foldl_cons, h1, ih]

theorem d3max_foldl (x : Int) (xs : List Int) :
    d3max (x :: xs) = some (xs.foldl max x) := by
  show xs.foldl _ (some x) = _
  induction xs generalizing x with
  | nil => rfl
  | cons v vs ih =>
    have h1 : (if x < v then v else x) = max x v := by split <;> omega
    simp only [List.foldl_cons, h1, ih]

/-- `d3.min` on a non-empty list returns the attained minimum. -/
theorem d3min_spec (xs : List Int) (h : xs ≠ []) :
    ∃ mn, d3min xs = some mn ∧ mn ∈ xs ∧ ∀ v ∈ xs, mn ≤ v := by
  match xs, h with
  | x :: xs, _ =>
    refine ⟨xs.foldl min x, d3min_foldl x xs, ?_, ?_⟩
    · rcases foldl_min_mem xs x with h | h
      · rw [h]; exact List.mem_cons_self x xs
      · exact List.mem_cons_of_mem x h
    · intro v hv
      rcases List.mem_cons.mp hv with h | h
      · subst h; exact foldl_min_le_init xs v
      · exact foldl_min_le xs x v h

/-- `d3.max` on a non-empty list returns the attained maximum. -/
theorem d3max_spec (xs : List Int) (h : xs ≠ []) :
    ∃ mx, d3max xs = some mx ∧ mx ∈ xs ∧ ∀ v ∈ xs, v ≤ mx := by
  match xs, h with
  | x :: xs, _ =>
    refine ⟨xs.foldl max x, d3max_foldl x xs, ?_, ?_⟩
    · rcases foldl_max_mem xs x with h | h
      · rw [h]; exact List.mem_cons_self x xs
      · exact List.mem_cons_of_mem x h
    · intro v hv
      rcases List.mem_cons.mp hv with h | h
      · subst h; exact le_foldl_max_init xs v
      · exact le_foldl_max xs x v h

/-- Claim C2: for every non-empty series the computed extents are the true
minima and maxima as ordered `[min, max]` pairs — the time chart's
`xExtent`/`yExtent` over dates/prices, and the Gantt `xExtent` as
`[earliest start, latest end]` over the visible nodes. -/
theorem claim2_extent_correct (series : List Serie) (ns : List SGNode)
    (hs : series ≠ []) (hn : ns ≠ []) :
    (∃ mn mx, (TimeChart.computeExtent series).1 = (some mn, some mx) ∧
      mn ∈ series.map Serie.date ∧ mx ∈ series.map Serie.date ∧
      ∀ v ∈ series.map Serie.date, mn ≤ v ∧ v ≤ mx) ∧
    (∃ mn mx, (TimeChart.computeExtent series).2 = (some mn, some mx) ∧
      mn ∈ series.map Serie.price ∧ mx ∈ series.map Serie.price ∧
      ∀ v ∈ series.map Serie.price, mn ≤ v ∧ v ≤ mx) ∧
    (∃ mn, (Gantt.computeExtent ns).1 = some mn ∧
      mn ∈ ns.map (fun nd => nd.data.start) ∧
      ∀ v ∈ ns.map (fun nd => nd.data.start), mn ≤ v) ∧
    (∃ mx, (Gantt.computeExtent ns).2 = some mx ∧
      mx ∈ ns.map (fun nd => nd.data.«end») ∧
      ∀ v ∈ ns.map (fun nd => nd.data.«end»), v ≤ mx) := by
  have hd : series.map Serie.date ≠ [] := by
    simpa using hs
  have hp : series.map Serie.price ≠ [] := by
    simpa using hs
  have hst : ns.map (fun nd => nd.data.start) ≠ [] := by
    simpa using hn
  have hen : ns.map (fun nd => nd.data.«end») ≠ [] := by
    simpa using hn
  exact ⟨extent_spec _ hd, extent_spec _ hp, d3min_spec _ hst, d3max_spec _ hen⟩

/-- Claim C2 witness at a concrete series and node list. -/
theorem claim2_witness :
    (sampleSeries ≠ [] ∧ sampleNodes ≠ []) ∧
    ((∃ mn mx, (TimeChart.computeExtent sampleSeries).1 = (some mn, some mx) ∧
      mn ∈ sampleSeries.map Serie.date ∧ mx ∈ sampleSeries.map Serie.date ∧
      ∀ v ∈ sampleSeries.map Serie.date, mn ≤ v ∧ v ≤ mx) ∧
    (∃ mn mx, (TimeChart.computeExtent sampleSeries).2 = (some mn, some mx) ∧
      mn ∈ sampleSeries.map Serie.price ∧ mx ∈ sampleSeries.map Serie.price ∧
      ∀ v ∈ sampleSeries.map Serie.price, mn ≤ v ∧ v ≤ mx) ∧
    (∃ mn, (Gantt.computeExtent sampleNodes).1 = some mn ∧
      mn ∈ sampleNodes.map (fun nd => nd.data.start) ∧
      ∀ v ∈ sampleNodes.map (fun nd => nd.data.start), mn ≤ v) ∧
    (∃ mx, (Gantt.computeExtent sampleNodes).2 = some mx ∧
      mx ∈ sampleNodes.map (fun nd => nd.data.«end») ∧
      ∀ v ∈ sampleNodes.map (fun nd => nd.data.«end»), v ≤ mx)) :=
  ⟨⟨List.cons_ne_nil _ _, List.cons_ne_nil _ _⟩,
   claim2_extent_correct sampleSeries sampleNodes
     (List.cons_ne_nil _ _) (List.cons_ne_nil _ _)⟩

/-- Claim C9: extent computation over an empty series yields an
undefined/degenerate domain — both endpoints undefined — rather than an
error, for the time chart and for the Gantt chart alike. -/
theorem claim9_empty_extent :
    TimeChart.computeExtent [] = ((none, none), (none, none)) ∧
    Gantt.computeExtent [] = (none, none) :=
  ⟨rfl, rfl⟩

/-- Claim C6: the gesture configuration constrains the scale factor to
`[1, 4]` with zoom and translate extents equal to the plot rectangle, and
the `zoomed` handler only remaps the price scale's pixel range — applying
the gesture's affine transform to the unclamped endpoints `canvasHeight`
and `0` — and recomputes the axis configurations; the time scale's domain
and range (and the data and the price domain) are untouched. -/
theorem claim6_zoom_frame (t : ZoomTransform) (s : TimeState) :
    (computeZoom s).scaleExtent = (1, 4) ∧
    (computeZoom s).extent = plotRect s ∧
    (computeZoom s).translateExtent = plotRect s ∧
    (zoomed t s).xDomain = s.xDomain ∧
    (zoomed t s).xRange = s.xRange ∧
    (zoomed t s).series = s.series ∧
    (zoomed t s).yDomain = s.yDomain ∧
    (zoomed t s).yRange =
      (applyY t ((canvasHeight s.height s.pad : Int) : Rat), applyY t 0) ∧
    (zoomed t s).yAxis = TimeChart.yAxisCfg s.width s.pad ∧
    (zoomed t s).xAxis = TimeChart.xAxisCfg s.height s.pad :=
  ⟨rfl, rfl, rfl, rfl, rfl, rfl, rfl, rfl, rfl, rfl⟩

/-- Claim C7 (amended): the time chart's x axis generates ticks at the fixed
target count 12 with the year/month format; the grid-line (inner tick) length
equals the opposite canvas dimension for the time chart's y axis and for both
Gantt axes; the time chart's x axis instead sets only its *outer* tick size
to the opposite canvas dimension, keeping the library default inner tick
length 6; and the Gantt time axis keeps the library's default tick count and
format. -/
theorem claim7_axis_config (w h : Int) (p : Padding) (n : Nat) :
    (TimeChart.xAxisCfg h p).ticksCount = some 12 ∧
    (TimeChart.xAxisCfg h p).format = .utc "%Y/%m" ∧
    (TimeChart.yAxisCfg w p).tickSizeInner = -(canvasWidth w p) ∧
    (Gantt.yAxisCfg w p).tickSizeInner = -(canvasWidth w p) ∧
    (Gantt.xAxisCfg n p).tickSizeInner = -(Gantt.ganttCanvasHeight n p) ∧
    (Gantt.xAxisCfg n p).tickSizeOuter = -(Gantt.ganttCanvasHeight n p) ∧
    (TimeChart.xAxisCfg h p).tickSizeInner = 6 ∧
    (TimeChart.xAxisCfg h p).tickSizeOuter = -(canvasHeight h p) ∧
    (Gantt.xAxisCfg n p).ticksCount = none ∧
    (Gantt.xAxisCfg n p).format = .dflt :=
  ⟨rfl, rfl, rfl, rfl, rfl, rfl, rfl, rfl, rfl, rfl⟩

/-- Claim C7 counterexample: at the default time-chart dimensions the x
axis's grid-line (inner tick) length is the default 6, not the opposite
canvas dimension 565 (only the outer tick size was set to it); and the
Gantt time axis has no fixed tick count.  So not every computed axis has
grid lines spanning the plot, and not every time axis has a fixed target
count with a month/year format. -/
theorem claim7_counterexample :
    (TimeChart.xAxisCfg 600 TimeChart.padding).tickSizeInner = 6 ∧
    canvasHeight 600 TimeChart.padding = 565 ∧
    ¬((TimeChart.xAxisCfg 600 TimeChart.padding).tickSizeInner =
        canvasHeight 600 TimeChart.padding ∨
      (TimeChart.xAxisCfg 600 TimeChart.padding).tickSizeInner =
        -(canvasHeight 600 TimeChart.padding)) ∧
    (Gantt.xAxisCfg 2 Gantt.padding).ticksCount = none ∧
    (Gantt.xAxisCfg 2 Gantt.padding).format = .dflt := by
  refine ⟨rfl, rfl, ?_, rfl, rfl⟩
  decide

theorem allocElems_keys (f : Nat) (ks : List (Option Nat)) :
    (allocElems f ks).map GElem.key = ks := by
  induction ks generalizing f with
  | nil => rfl
  | cons k ks ih => simp [allocElems, ih]

theorem allocElems_id_ge (f : Nat) (ks : List (Option Nat)) :
    ∀ e ∈ allocElems f ks, f ≤ e.elemId := by
  induction ks generalizing f with
  | nil => intro e he; cases he
  | cons k ks ih =>
    intro e he
    rcases List.mem_cons.mp he with h | h
    · subst h; exact le_rfl
    · exact le_trans (Nat.le_succ f) (ih (f + 1) e h)

theorem allocElems_mem_key (f : Nat) (ks : List (Option Nat)) (k : Option Nat)
    (hk : k ∈ ks) : ∃ e ∈ allocElems f ks, e.key = k := by
  induction ks generalizing f with
  | nil => cases hk
  | cons k' ks ih =>
    rcases List.mem_cons.mp hk with h | h
    · subst h
      exact ⟨⟨f, k⟩, List.mem_cons_self _ _, rfl⟩
    · rcases ih (f + 1) h with ⟨e, he, hek⟩
      exact ⟨e, List.mem_cons_of_mem _ he, hek⟩

theorem allocElems_key_mem (f : Nat) (ks : List (Option Nat)) (e : GElem)
    (he : e ∈ allocElems f ks) : e.key ∈ ks := by
  have := allocElems_keys f ks
  rw [← this]
  exact List.mem_map_of_mem GElem.key he

/-- Claim C5: the `renderGantt` keyed reconciliation leaves the live
visual-element key set exactly equal to the key set of the new flattened
node list: keys only in the new list get newly created elements (fresh
identities), elements with keys not in the new list are removed, and
elements whose key occurs in both lists are kept in place — the very same
element survives, rather than being removed and recreated. -/
theorem claim5_reconciliation (live : List GElem) (ns : List SGNode) (fresh : Nat) :
    (∀ k, (∃ e ∈ (renderGantt live ns fresh).1, e.key = k) ↔ k ∈ flatKeys ns) ∧
    (∀ e ∈ live, e.key ∈ flatKeys ns → e ∈ (renderGantt live ns fresh).1) ∧
    (∀ e ∈ live, e.key ∉ flatKeys ns → e ∉ (renderGantt live ns fresh).1) ∧
    (∀ e ∈ (renderGantt live ns fresh).1, e ∉ live →
      e.key ∈ flatKeys ns ∧ fresh ≤ e.elemId) := by
  unfold renderGantt dataJoin
  refine ⟨?_, ?_, ?_, ?_⟩
  · intro k
    constructor
    · rintro ⟨e, he, rfl⟩
      rcases List.mem_append.mp he with h | h
      · exact of_decide_eq_true (List.mem_filter.mp h).2
      · exact (List.mem_filter.mp (allocElems_key_mem _ _ _ h)).1
    · intro hk
      by_cases hex : ∃ e ∈ live, e.key = k
      · rcases hex with ⟨e, he, hek⟩
        refine ⟨e, List.mem_append.mpr (Or.inl ?_), hek⟩
        exact List.mem_filter.mpr ⟨he, decide_eq_true (hek ▸ hk)⟩
      · push_neg at hex
        have hkent : k ∈ (flatKeys ns).filter (fun k => decide (∀ e ∈ live, e.key ≠ k)) :=
          List.mem_filter.mpr ⟨hk, decide_eq_true (by intro e he; exact hex e he)⟩
        rcases allocElems_mem_key fresh _ k hkent with ⟨e, he, hek⟩
        exact ⟨e, List.mem_append.mpr (Or.inr he), hek⟩
  · intro e he hk
    exact List.mem_append.mpr (Or.inl (List.mem_filter.mpr ⟨he, decide_eq_true hk⟩))
  · intro e he hk hmem
    rcases List.mem_append.mp hmem with h | h
    · exact hk (of_decide_eq_true (List.mem_filter.mp h).2)
    · exact hk (List.mem_filter.mp (allocElems_key_mem _ _ _ h)).1
  · intro e he hnl
    rcases List.mem_append.mp he with h | h
    · exact absurd (List.mem_filter.mp h).1 hnl
    · exact ⟨(List.mem_filter.mp (allocElems_key_mem _ _ _ h)).1,
        allocElems_id_ge _ _ e h⟩

/-! ## The flatten pass: counters, keys, projections -/

mutual
theorem ppNode_cnt_le (d : Nat) (s : SerieGantt) (c : Nat) :
    c ≤ (ppNode d s c).2.2 := by
  match s with
  | .mk n st en k dat hd =>
    by_cases hk : k = some rootKEY
    · match dat with
      | none => simp [ppNode, hk]
      | some kids =>
        have := ppList_cnt_le (d+1) kids c
        simp only [ppNode, hk, if_true]
        omega
    · match dat with
      | none => simp [ppNode, hk]
      | some kids =>
        have := ppList_cnt_le (d+1) kids (c+1)
        simp only [ppNode, hk, if_false]
        omega

theorem ppList_cnt_le (d : Nat) (l : List SerieGantt) (c : Nat) :
    c ≤ (ppList d l c).2.2 := by
  match l with
  | [] => simp [ppList]
  | x :: xs =>
    have h1 := ppNode_cnt_le d x c
    have h2 := ppList_cnt_le d xs (ppNode d x c).2.2
    simp only [ppList]
    omega
end

theorem range'_glue (a b cc : Nat) (h1 : a ≤ b) (h2 : b ≤ cc) :
    List.range' a (b - a) ++ List.range' b (cc - b) = List.range' a (cc - a) := by
  have h3 : a + 1 * (b - a) = b := by omega
  have h4 : cc - b + (b - a) = cc - a := by omega
  have h5 := List.range'_append a (b - a) (cc - b) 1
  rw [h3, h4] at h5
  simpa using h5

mutual
theorem ppNode_keys (d : Nat) (s : SerieGantt) (c : Nat) :
    flatKeys (ppNode d s c).2.1 =
      (List.range' c ((ppNode d s c).2.2 - c)).map some := by
  match s with
  | .mk n st en k dat hd =>
    by_cases hk : k = some rootKEY
    · match dat with
      | none => simp [ppNode, hk, flatKeys]
      | some kids =>
        have := ppList_keys (d+1) kids c
        simpa only [ppNode, hk, if_true] using this
    · match dat with
      | none =>
        simp [ppNode, hk, flatKeys, SerieGantt.key, List.range'_succ]
      | some kids =>
        have hle := ppList_cnt_le (d+1) kids (c+1)
        have hkeys := ppList_keys (d+1) kids (c+1)
        simp only [ppNode, hk, if_false, flatKeys, List.map_cons, SerieGantt.key]
        rw [show (ppList (d+1) kids (c+1)).2.2 - c =
          ((ppList (d+1) kids (c+1)).2.2 - (c+1)) + 1 from by omega]
        rw [List.range'_succ, List.map_cons]
        exact congrArg (some c :: ·) hkeys

theorem ppList_keys (d : Nat) (l : List SerieGantt) (c : Nat) :
    flatKeys (ppList d l c).2.1 =
      (List.range' c ((ppList d l c).2.2 - c)).map some := by
  match l with
  | [] => simp [ppList, flatKeys]
  | x :: xs =>
    have h1 := ppNode_keys d x c
    have h2 := ppList_keys d xs (ppNode d x c).2.2
    have hc1 := ppNode_cnt_le d x c
    have hc2 := ppList_cnt_le d xs (ppNode d x c).2.2
    simp only [ppList, flatKeys, List.map_append]
    rw [show flatKeys = fun ns => ns.map (fun nd => nd.data.key) from rfl] at h1 h2
    simp only at h1 h2
    rw [h1, h2, ← List.map_append, range'_glue c (ppNode d x c).2.2 (ppList d xs (ppNode d x c).2.2).2.2 hc1 hc2]
end

/-- Claim C4: on every flatten pass each emitted record gets a brand-new key
(drawn from the pass's fresh window `[c, c')`, overwriting whatever it had),
so keys within one pass are pairwise distinct, keys of a later pass never
repeat a key of an earlier pass (over any tree — also the toggled one), and
the reserved root key never appears in the output. -/
theorem claim4_key_freshness (t u : SerieGantt) (c : Nat) (hc : 1 ≤ c) :
    (flatKeys (ppNode 0 t c).2.1).Nodup ∧
    some rootKEY ∉ flatKeys (ppNode 0 t c).2.1 ∧
    (∀ kk ∈ flatKeys (ppNode 0 t c).2.1,
      ∃ j, kk = some j ∧ c ≤ j ∧ j < (ppNode 0 t c).2.2) ∧
    (∀ kk ∈ flatKeys (ppNode 0 u (ppNode 0 t c).2.2).2.1,
      kk ∉ flatKeys (ppNode 0 t c).2.1) := by
  have hk := ppNode_keys 0 t c
  have hk2 := ppNode_keys 0 u (ppNode 0 t c).2.2
  have hle := ppNode_cnt_le 0 t c
  have hle2 := ppNode_cnt_le 0 u (ppNode 0 t c).2.2
  refine ⟨?_, ?_, ?_, ?_⟩
  · rw [hk]
    exact List.Nodup.map (Option.some_injective _) (List.nodup_range' _ _)
  · rw [hk]
    intro hmem
    rcases List.mem_map.mp hmem with ⟨j, hj, hjeq⟩
    have hj0 : j = rootKEY := Option.some.inj hjeq
    have h1 := (List.mem_range'_1.mp hj).1
    rw [hj0] at h1
    simp only [rootKEY] at h1
    omega
  · intro kk hkk
    rw [hk] at hkk
    rcases List.mem_map.mp hkk with ⟨j, hj, hjeq⟩
    have h1 := List.mem_range'_1.mp hj
    exact ⟨j, hjeq.symm, h1.1, by omega⟩
  · intro kk h2 h1
    rw [hk] at h1
    rw [hk2] at h2
    rcases List.mem_map.mp h1 with ⟨j1, hj1, hjeq1⟩
    rcases List.mem_map.mp h2 with ⟨j2, hj2, hjeq2⟩
    have e12 : j2 = j1 := Option.some.inj (hjeq2.trans hjeq1.symm)
    have b1 := List.mem_range'_1.mp hj1
    have b2 := List.mem_range'_1.mp hj2
    omega

/-- Claim C4 witness at the concrete record A (with child B), counter 1, the
second pass again over A. -/
theorem claim4_witness :
    1 ≤ 1 ∧
    ((flatKeys (ppNode 0 sampleA 1).2.1).Nodup ∧
     some rootKEY ∉ flatKeys (ppNode 0 sampleA 1).2.1 ∧
     (∀ kk ∈ flatKeys (ppNode 0 sampleA 1).2.1,
       ∃ j, kk = some j ∧ 1 ≤ j ∧ j < (ppNode 0 sampleA 1).2.2) ∧
     (∀ kk ∈ flatKeys (ppNode 0 sampleA (ppNode 0 sampleA 1).2.2).2.1,
       kk ∉ flatKeys (ppNode 0 sampleA 1).2.1)) :=
  ⟨le_rfl, claim4_key_freshness sampleA sampleA 1 le_rfl⟩

/-! ## The flatten pass agrees with the specification pre-order -/

mutual
theorem ppNode_proj (d : Nat) (s : SerieGantt) (c : Nat)
    (hkf : keyFreeB s = true) : flatProj (ppNode d s c).2.1 = specFlatten d s := by
  match s with
  | .mk n st en k dat hd =>
    simp only [keyFreeB, Bool.and_eq_true, bne_iff_ne] at hkf
    obtain ⟨⟨hk, hkd⟩, hkh⟩ := hkf
    match dat with
    | none =>
      simp [ppNode, if_neg hk, flatProj, specFlatten, toDate,
        SerieGantt.name, SerieGantt.start, SerieGantt.«end»]
    | some kids =>
      have ih := ppList_proj (d+1) kids (c+1) (by simpa [keyFreeO] using hkd)
      simp only [ppNode, if_neg hk, flatProj, List.map_cons, specFlatten, toDate,
        SerieGantt.name, SerieGantt.start, SerieGantt.«end»]
      exact congrArg _ ih

theorem ppList_proj (d : Nat) (l : List SerieGantt) (c : Nat)
    (hkf : keyFreeL l = true) : flatProj (ppList d l c).2.1 = specFlattenL d l := by
  match l with
  | [] => simp [ppList, flatProj, specFlattenL]
  | x :: xs =>
    simp only [keyFreeL, Bool.and_eq_true] at hkf
    have ih1 := ppNode_proj d x c hkf.1
    have ih2 := ppList_proj d xs (ppNode d x c).2.2 hkf.2
    simp only [ppList, flatProj, List.map_append, specFlattenL]
    rw [show flatProj = fun ns => ns.map
      (fun nd => (nd.data.name, nd.data.start, nd.data.«end», nd.depth)) from rfl] at ih1 ih2
    simp only at ih1 ih2
    rw [ih1, ih2]
end

theorem ppRoot_proj (w : SerieGantt) (c : Nat) (hkf : rootKeyFreeB w = true) :
    flatProj (ppNode 0 w c).2.1 = specRootFlatten w := by
  match w with
  | .mk n st en k dat hd =>
    simp only [rootKeyFreeB, Bool.and_eq_true, beq_iff_eq, SerieGantt.key,
      SerieGantt.data, SerieGantt.hdata] at hkf
    obtain ⟨⟨hk, hkd⟩, hkh⟩ := hkf
    subst hk
    match dat with
    | none =>
      simp [ppNode, specRootFlatten, SerieGantt.data, flatProj, specFlattenL]
    | some kids =>
      have ih := ppList_proj 1 kids c (by simpa [keyFreeO] using hkd)
      simpa [ppNode, specRootFlatten, SerieGantt.data] using ih

/-! ## The flatten pass and the toggle preserve key-freeness -/

mutual
theorem ppNode_keyFree (d : Nat) (s : SerieGantt) (c : Nat) (hc : 1 ≤ c)
    (hkf : keyFreeB s = true) : keyFreeB (ppNode d s c).1 = true := by
  match s with
  | .mk n st en k dat hd =>
    simp only [keyFreeB, Bool.and_eq_true, bne_iff_ne] at hkf
    obtain ⟨⟨hk, hkd⟩, hkh⟩ := hkf
    match dat with
    | none =>
      simp only [ppNode, if_neg hk]
      simp only [keyFreeB, keyFreeO, Bool.and_eq_true, bne_iff_ne]
      refine ⟨⟨?_, trivial⟩, hkh⟩
      simp only [rootKEY]
      intro h
      have := Option.some.inj h
      omega
    | some kids =>
      have ih := ppList_keyFree (d+1) kids (c+1) (by omega)
        (by simpa [keyFreeO] using hkd)
      simp only [ppNode, if_neg hk]
      simp only [keyFreeB, keyFreeO, Bool.and_eq_true, bne_iff_ne]
      refine ⟨⟨?_, ih⟩, hkh⟩
      simp only [rootKEY]
      intro h
      have := Option.some.inj h
      omega

theorem ppList_keyFree (d : Nat) (l : List SerieGantt) (c : Nat) (hc : 1 ≤ c)
    (hkf : keyFreeL l = true) : keyFreeL (ppList d l c).1 = true := by
  match l with
  | [] => simp [ppList, keyFreeL]
  | x :: xs =>
    simp only [keyFreeL, Bool.and_eq_true] at hkf
    have ih1 := ppNode_keyFree d x c hc hkf.1
    have ih2 := ppList_keyFree d xs (ppNode d x c).2.2
      (le_trans hc (ppNode_cnt_le d x c)) hkf.2
    simp only [ppList, keyFreeL, Bool.and_eq_true]
    exact ⟨ih1, ih2⟩
end

theorem ppRoot_keyFree (w : SerieGantt) (c : Nat) (hc : 1 ≤ c)
    (hkf : rootKeyFreeB w = true) : rootKeyFreeB (ppNode 0 w c).1 = true := by
  match w with
  | .mk n st en k dat hd =>
    simp only [rootKeyFreeB, Bool.and_eq_true, beq_iff_eq, SerieGantt.key,
      SerieGantt.data, SerieGantt.hdata] at hkf
    obtain ⟨⟨hk, hkd⟩, hkh⟩ := hkf
    subst hk
    match dat with
    | none =>
      simp [ppNode, rootKeyFreeB, SerieGantt.key, SerieGantt.data,
        SerieGantt.hdata, keyFreeO, hkh]
    | some kids =>
      have ih := ppList_keyFree 1 kids c hc (by simpa [keyFreeO] using hkd)
      simp [ppNode, rootKeyFreeB, SerieGantt.key, SerieGantt.data,
        SerieGantt.hdata, keyFreeO, hkh, ih]

theorem keyFreeL_get (l : List SerieGantt) (i : Nat) (x : SerieGantt)
    (hx : l[i]? = some x) (hkf : keyFreeL l = true) : keyFreeB x = true := by
  induction l generalizing i with
  | nil => simp at hx
  | cons y ys ih =>
    simp only [keyFreeL, Bool.and_eq_true] at hkf
    match i with
    | 0 =>
      rw [List.getElem?_cons_zero] at hx
      exact (Option.some.inj hx) ▸ hkf.1
    | i + 1 =>
      rw [List.getElem?_cons_succ] at hx
      exact ih i hx hkf.2

theorem keyFreeL_set (l : List SerieGantt) (i : Nat) (x : SerieGantt)
    (hkf : keyFreeL l = true) (hx : keyFreeB x = true) :
    keyFreeL (l.set i x) = true := by
  induction l generalizing i with
  | nil => simp [keyFreeL]
  | cons y ys ih =>
    simp only [keyFreeL, Bool.and_eq_true] at hkf
    match i with
    | 0 => simp only [List.set_cons_zero, keyFreeL, Bool.and_eq_true]
           exact ⟨hx, hkf.2⟩
    | i + 1 => simp only [List.set_cons_succ, keyFreeL, Bool.and_eq_true]
               exact ⟨hkf.1, ih i hkf.2⟩

theorem toggleRec_keyFree (s : SerieGantt) (hkf : keyFreeB s = true) :
    keyFreeB (toggleRec s) = true := by
  match s with
  | .mk n st en k (some d) hd =>
    simp only [toggleRec, keyFreeB, keyFreeO, Bool.and_eq_true, bne_iff_ne] at hkf ⊢
    tauto
  | .mk n st en k none hd =>
    simp only [toggleRec, keyFreeB, keyFreeO, Bool.and_eq_true, bne_iff_ne] at hkf ⊢
    tauto

theorem toggleAt_keyFree (p : List Nat) (s : SerieGantt)
    (hkf : keyFreeB s = true) : keyFreeB (toggleAt s p) = true := by
  induction p generalizing s with
  | nil => exact toggleRec_keyFree s hkf
  | cons i p ih =>
    match s with
    | .mk n st en k none hd => simpa [toggleAt] using hkf
    | .mk n st en k (some kids) hd =>
      match hki : kids[i]? with
      | none => simpa [toggleAt, hki] using hkf
      | some ki =>
        simp only [toggleAt, hki]
        simp only [keyFreeB, keyFreeO, Bool.and_eq_true] at hkf ⊢
        refine ⟨⟨hkf.1.1, ?_⟩, hkf.2⟩
        exact keyFreeL_set kids i _ hkf.1.2 (ih _ (keyFreeL_get kids i ki hki hkf.1.2))

theorem toggleAt_rootKeyFree (p : List Nat) (w : SerieGantt)
    (hkf : rootKeyFreeB w = true) : rootKeyFreeB (toggleAt w p) = true := by
  match p with
  | [] =>
    match w with
    | .mk n st en k (some d) hd =>
      simp only [rootKeyFreeB, SerieGantt.key, SerieGantt.data, SerieGantt.hdata,
        keyFreeO, Bool.and_eq_true] at hkf ⊢
      exact ⟨⟨hkf.1.1, rfl⟩, hkf.1.2⟩
    | .mk n st en k none hd =>
      simp only [rootKeyFreeB, SerieGantt.key, SerieGantt.data, SerieGantt.hdata,
        keyFreeO, Bool.and_eq_true] at hkf ⊢
      exact ⟨⟨hkf.1.1, hkf.2⟩, rfl⟩
  | i :: p =>
    match w with
    | .mk n st en k none hd => simpa [toggleAt] using hkf
    | .mk n st en k (some kids) hd =>
      match hki : kids[i]? with
      | none => simpa [toggleAt, hki] using hkf
      | some ki =>
        simp only [toggleAt, hki]
        simp only [rootKeyFreeB, SerieGantt.key, SerieGantt.data,
          SerieGantt.hdata, keyFreeO, Bool.and_eq_true] at hkf ⊢
        refine ⟨⟨hkf.1.1, ?_⟩, hkf.2⟩
        exact keyFreeL_set kids i _ hkf.1.2
          (toggleAt_keyFree p ki (keyFreeL_get kids i ki hki hkf.1.2))

/-! ## Key erasure: the flatten pass changes a tree only up to keys -/

mutual
theorem ppNode_erase (d : Nat) (s : SerieGantt) (c : Nat) :
    eraseKeys (ppNode d s c).1 = eraseKeys s := by
  match s with
  | .mk n st en k dat hd =>
    by_cases hk : k = some rootKEY
    · match dat with
      | none => simp [ppNode, hk]
      | some kids =>
        have ih := ppList_erase (d+1) kids c
        simp [ppNode, hk, eraseKeys, eraseKeysO, ih]
    · match dat with
      | none => simp [ppNode, hk, eraseKeys, eraseKeysO, toDate]
      | some kids =>
        have ih := ppList_erase (d+1) kids (c+1)
        simp [ppNode, hk, eraseKeys, eraseKeysO, toDate, ih]

theorem ppList_erase (d : Nat) (l : List SerieGantt) (c : Nat) :
    eraseKeysL (ppList d l c).1 = eraseKeysL l := by
  match l with
  | [] => simp [ppList]
  | x :: xs =>
    have ih1 := ppNode_erase d x c
    have ih2 := ppList_erase d xs (ppNode d x c).2.2
    simp [ppList, eraseKeysL, ih1, ih2]
end

mutual
theorem specFlatten_erase (d : Nat) (s : SerieGantt) :
    specFlatten d (eraseKeys s) = specFlatten d s := by
  match s with
  | .mk n st en k none hd => simp [eraseKeys, eraseKeysO, specFlatten]
  | .mk n st en k (some kids) hd =>
    have ih := specFlattenL_erase (d+1) kids
    simp [eraseKeys, eraseKeysO, specFlatten, ih]

theorem specFlattenL_erase (d : Nat) (l : List SerieGantt) :
    specFlattenL d (eraseKeysL l) = specFlattenL d l := by
  match l with
  | [] => simp [eraseKeysL]
  | x :: xs =>
    have ih1 := specFlatten_erase d x
    have ih2 := specFlattenL_erase d xs
    simp [eraseKeysL, specFlattenL, ih1, ih2]
end

theorem erase_data (s : SerieGantt) :
    (eraseKeys s).data = eraseKeysO s.data := by
  match s with
  | .mk n st en k dat hd => simp [eraseKeys, SerieGantt.data]

theorem erase_hdata (s : SerieGantt) :
    (eraseKeys s).hdata = eraseKeysO s.hdata := by
  match s with
  | .mk n st en k dat hd => simp [eraseKeys, SerieGantt.hdata]

theorem specRoot_erase (w : SerieGantt) :
    specRootFlatten (eraseKeys w) = specRootFlatten w := by
  match w with
  | .mk n st en k none hd =>
    simp [specRootFlatten, eraseKeys, eraseKeysO, SerieGantt.data]
  | .mk n st en k (some kids) hd =>
    simp [specRootFlatten, eraseKeys, eraseKeysO, SerieGantt.data,
      specFlattenL_erase]

theorem eraseKeysL_getElem (l : List SerieGantt) (i : Nat) :
    (eraseKeysL l)[i]? = (l[i]?).map eraseKeys := by
  induction l generalizing i with
  | nil => simp [eraseKeysL]
  | cons x xs ih =>
    match i with
    | 0 => simp [eraseKeysL]
    | i + 1 => simpa [eraseKeysL] using ih i

theorem eraseKeysL_set (l : List SerieGantt) (i : Nat) (x : SerieGantt) :
    eraseKeysL (l.set i x) = (eraseKeysL l).set i (eraseKeys x) := by
  induction l generalizing i with
  | nil => simp [eraseKeysL]
  | cons y ys ih =>
    match i with
    | 0 => simp [eraseKeysL]
    | i + 1 => simp [eraseKeysL, ih i]

theorem toggleRec_erase (s : SerieGantt) :
    eraseKeys (toggleRec s) = toggleRec (eraseKeys s) := by
  match s with
  | .mk n st en k (some d) hd => simp [toggleRec, eraseKeys, eraseKeysO]
  | .mk n st en k none hd =>
    match hd with
    | none => simp [toggleRec, eraseKeys, eraseKeysO]
    | some h => simp [toggleRec, eraseKeys, eraseKeysO]

theorem toggleAt_erase (p : List Nat) (s : SerieGantt) :
    eraseKeys (toggleAt s p) = toggleAt (eraseKeys s) p := by
  induction p generalizing s with
  | nil => exact toggleRec_erase s
  | cons i p ih =>
    match s with
    | .mk n st en k none hd => simp [toggleAt, eraseKeys, eraseKeysO]
    | .mk n st en k (some kids) hd =>
      match hki : kids[i]? with
      | none =>
        have h2 : (eraseKeysL kids)[i]? = none := by
          simp [eraseKeysL_getElem, hki]
        simp [toggleAt, hki, h2, eraseKeys, eraseKeysO]
      | some ki =>
        have h2 : (eraseKeysL kids)[i]? = some (eraseKeys ki) := by
          simp [eraseKeysL_getElem, hki]
        simp [toggleAt, hki, h2, eraseKeys, eraseKeysO, eraseKeysL_set, ih ki]

/-- One flatten pass does not change the spec-level flatten of the root
tree (it rewrites keys and dates only). -/
theorem specRoot_pp (w : SerieGantt) (c : Nat) :
    specRootFlatten (ppNode 0 w c).1 = specRootFlatten w := by
  calc specRootFlatten (ppNode 0 w c).1
      = specRootFlatten (eraseKeys (ppNode 0 w c).1) := (specRoot_erase _).symm
    _ = specRootFlatten (eraseKeys w) := by rw [ppNode_erase]
    _ = specRootFlatten w := specRoot_erase w

/-- Toggling the same path commutes with an interposed flatten pass, at the
level of the spec flatten. -/
theorem specRoot_toggle_pp (w : SerieGantt) (c : Nat) (p : List Nat) :
    specRootFlatten (toggleAt (ppNode 0 w c).1 p) =
      specRootFlatten (toggleAt w p) := by
  calc specRootFlatten (toggleAt (ppNode 0 w c).1 p)
      = specRootFlatten (eraseKeys (toggleAt (ppNode 0 w c).1 p)) :=
        (specRoot_erase _).symm
    _ = specRootFlatten (toggleAt (eraseKeys (ppNode 0 w c).1) p) := by
        rw [toggleAt_erase]
    _ = specRootFlatten (toggleAt (eraseKeys w) p) := by rw [ppNode_erase]
    _ = specRootFlatten (eraseKeys (toggleAt w p)) := by rw [toggleAt_erase]
    _ = specRootFlatten (toggleAt w p) := specRoot_erase _

/-! ## Double toggle restores the spec flatten -/

theorem specFlattenL_set (l : List SerieGantt) (i : Nat) (x y : SerieGantt)
    (d : Nat) (hx : l[i]? = some x) (hxy : specFlatten d y = specFlatten d x) :
    specFlattenL d (l.set i y) = specFlattenL d l := by
  induction l generalizing i with
  | nil => simp at hx
  | cons z zs ih =>
    match i with
    | 0 =>
      rw [List.getElem?_cons_zero] at hx
      have hz : z = x := Option.some.inj hx
      subst hz
      simp [specFlattenL, hxy]
    | i + 1 =>
      rw [List.getElem?_cons_succ] at hx
      simp [specFlattenL, ih i hx]

theorem toggle2_spec (p : List Nat) (s r : SerieGantt) (kids : List SerieGantt)
    (d : Nat) (hget : getAt s p = some r) (hkids : r.data = some kids) :
    specFlatten d (toggleAt (toggleAt s p) p) = specFlatten d s := by
  induction p generalizing s d with
  | nil =>
    have hs : s = r := Option.some.inj hget
    subst hs
    match s, hkids with
    | .mk n st en k (some kids) hd, _ =>
      simp [toggleAt, toggleRec, specFlatten]
  | cons i p ih =>
    match s with
    | .mk n st en k none hd => simp [getAt] at hget
    | .mk n st en k (some kids0) hd =>
      match hki : kids0[i]? with
      | none => simp [getAt, hki] at hget
      | some ki =>
        have h1 : getAt ki p = some r := by simpa [getAt, hki] using hget
        have hlt : i < kids0.length := by
          rcases List.getElem?_eq_some.mp hki with ⟨hl, _⟩
          exact hl
        have hset : (kids0.set i (toggleAt ki p))[i]? = some (toggleAt ki p) :=
          List.getElem?_set_self (by simpa using hlt)
        simp only [toggleAt, hki, hset, List.set_set]
        simp only [specFlatten]
        rw [specFlattenL_set kids0 i ki (toggleAt (toggleAt ki p) p) (d+1) hki
          (ih ki (d+1) h1)]

theorem toggle2_specRoot (p : List Nat) (w r : SerieGantt)
    (kids : List SerieGantt) (hget : getAt w p = some r)
    (hkids : r.data = some kids) :
    specRootFlatten (toggleAt (toggleAt w p) p) = specRootFlatten w := by
  match p with
  | [] =>
    have hs : w = r := Option.some.inj hget
    subst hs
    match w, hkids with
    | .mk n st en k (some kids) hd, _ =>
      simp [toggleAt, toggleRec, specRootFlatten, SerieGantt.data]
  | i :: p =>
    match w with
    | .mk n st en k none hd => simp [getAt] at hget
    | .mk n st en k (some kids0) hd =>
      match hki : kids0[i]? with
      | none => simp [getAt, hki] at hget
      | some ki =>
        have h1 : getAt ki p = some r := by simpa [getAt, hki] using hget
        have hlt : i < kids0.length := by
          rcases List.getElem?_eq_some.mp hki with ⟨hl, _⟩
          exact hl
        have hset : (kids0.set i (toggleAt ki p))[i]? = some (toggleAt ki p) :=
          List.getElem?_set_self (by simpa using hlt)
        simp only [toggleAt, hki, hset, List.set_set]
        simp only [specRootFlatten, SerieGantt.data, Option.getD_some]
        exact specFlattenL_set kids0 i ki _ 1 hki (toggle2_spec p ki r kids 1 h1 hkids)

/-- Claim C1 (amended): for every input forest in which only the visible
child pointers are populated (and which is free of the reserved root key),
one flatten pass after setting the `series` input emits exactly the
specification pre-order of the forest — every reachable record exactly once,
parents before children, children in order, the synthetic root excluded —
and each node's recorded depth is its distance from the synthetic root, so
the top-level records carry depth 1 (not 0). -/
theorem claim1_flatten_preorder (series : List SerieGantt) (c : Nat)
    (hkf : keyFreeL series = true) (_hvo : visOnlyL series = true) :
    flatProj (setSeries series c).seriesNodes = specFlattenL 1 series := by
  have hwr : rootKeyFreeB (.mk "root" 0 0 (some rootKEY)
      (some (clone series)) none) = true := by
    simp [rootKeyFreeB, keyFreeO, SerieGantt.key, SerieGantt.data,
      SerieGantt.hdata, clone, hkf]
  have h := ppRoot_proj (.mk "root" 0 0 (some rootKEY)
    (some (clone series)) none) c hwr
  simpa [setSeries, stateOf, specRootFlatten, SerieGantt.data, clone] using h

/-- Claim C1 witness: the spec's two-record scenario (A with child B) at
counter 1. -/
theorem claim1_witness :
    (keyFreeL [sampleA] = true ∧ visOnlyL [sampleA] = true) ∧
    flatProj (setSeries [sampleA] 1).seriesNodes = specFlattenL 1 [sampleA] :=
  ⟨⟨by decide, by decide⟩,
   claim1_flatten_preorder [sampleA] 1 (by decide) (by decide)⟩

/-- Claim C1 counterexample (to the claim's concrete clause): flattening the
root wrapping A (with child B) yields the records A, B in order — but with
recorded depths 1 and 2 (their d3.hierarchy distances from the synthetic
root), not 0 and 1 as claimed. -/
theorem claim1_counterexample :
    (setSeries [sampleA] 1).seriesNodes.map (fun nd => (nd.data.name, nd.depth)) =
      [("A", 1), ("B", 2)] ∧
    (setSeries [sampleA] 1).seriesNodes.map SGNode.depth ≠ [0, 1] := by
  constructor
  · rfl
  · decide

/-- Claim C3: collapsing a node with visible children (one click) and then
expanding it (a second click) restores the flattened list to one with the
same underlying records — equal name, start and end — in the same relative
order as before the first click (keys are reassigned per pass and need not
match).  The state is any component state `stateOf t c` reachable after the
`series` setter or any sequence of clicks.  In the spec's two-node scenario
(root wrapping A with child B), the initial flatten is [A, B], clicking A's
bar yields the flatten [A] only (one node, B hidden), and clicking again
restores [A, B]. -/
theorem claim3_collapse_expand (t : SerieGantt) (c : Nat) (p : List Nat)
    (r : SerieGantt) (kids : List SerieGantt) (hc : 1 ≤ c)
    (hkf : rootKeyFreeB t = true)
    (hget : getAt (stateOf t c).serieSource p = some r)
    (hkids : r.data = some kids) :
    (flatProj (click (click (stateOf t c) p) p).seriesNodes =
      flatProj (stateOf t c).seriesNodes) ∧
    flatProj (stateOf sampleRoot 1).seriesNodes =
      [("A", 1, 5, 1), ("B", 2, 3, 2)] ∧
    flatProj (click (stateOf sampleRoot 1) [0]).seriesNodes = [("A", 1, 5, 1)] ∧
    flatProj (click (click (stateOf sampleRoot 1) [0]) [0]).seriesNodes =
      [("A", 1, 5, 1), ("B", 2, 3, 2)] := by
  refine ⟨?_, by decide, by decide, by decide⟩
  simp only [stateOf, click] at hget ⊢
  have h1 : rootKeyFreeB (ppNode 0 t c).1 = true := ppRoot_keyFree t c hc hkf
  have h2 : rootKeyFreeB (toggleAt (ppNode 0 t c).1 p) = true :=
    toggleAt_rootKeyFree p _ h1
  have hc1 : 1 ≤ (ppNode 0 t c).2.2 := le_trans hc (ppNode_cnt_le 0 t c)
  have h3 : rootKeyFreeB
      (ppNode 0 (toggleAt (ppNode 0 t c).1 p) (ppNode 0 t c).2.2).1 = true :=
    ppRoot_keyFree _ _ hc1 h2
  have h4 : rootKeyFreeB (toggleAt
      (ppNode 0 (toggleAt (ppNode 0 t c).1 p) (ppNode 0 t c).2.2).1 p) = true :=
    toggleAt_rootKeyFree p _ h3
  rw [ppRoot_proj _ _ h4, ppRoot_proj _ _ hkf]
  calc specRootFlatten (toggleAt
        (ppNode 0 (toggleAt (ppNode 0 t c).1 p) (ppNode 0 t c).2.2).1 p)
      = specRootFlatten (toggleAt (toggleAt (ppNode 0 t c).1 p) p) :=
        specRoot_toggle_pp _ _ p
    _ = specRootFlatten (ppNode 0 t c).1 := toggle2_specRoot p _ r kids hget hkids
    _ = specRootFlatten t := specRoot_pp t c

/-- Claim C3 witness: the spec's scenario — root wrapping A (child B),
clicking A (path `[0]`) twice — with the hypotheses discharged concretely. -/
theorem claim3_witness :
    (1 ≤ 1 ∧ rootKeyFreeB sampleRoot = true ∧
     getAt (stateOf sampleRoot 1).serieSource [0] = some sampleA1 ∧
     sampleA1.data = some [.mk "B" 2 3 (some 2) none none]) ∧
    ((flatProj (click (click (stateOf sampleRoot 1) [0]) [0]).seriesNodes =
       flatProj (stateOf sampleRoot 1).seriesNodes) ∧
     flatProj (stateOf sampleRoot 1).seriesNodes =
       [("A", 1, 5, 1), ("B", 2, 3, 2)] ∧
     flatProj (click (stateOf sampleRoot 1) [0]).seriesNodes = [("A", 1, 5, 1)] ∧
     flatProj (click (click (stateOf sampleRoot 1) [0]) [0]).seriesNodes =
       [("A", 1, 5, 1), ("B", 2, 3, 2)]) :=
  ⟨⟨le_rfl, by decide, rfl, rfl⟩,
   claim3_collapse_expand sampleRoot 1 [0] sampleA1 _ le_rfl (by decide) rfl rfl⟩

/-! ## Clicking a childless node -/

theorem set_getElem?_self (l : List SerieGantt) (i : Nat) (x : SerieGantt)
    (hx : l[i]? = some x) : l.set i x = l := by
  induction l generalizing i with
  | nil => simp
  | cons y ys ih =>
    match i with
    | 0 =>
      rw [List.getElem?_cons_zero] at hx
      rw [List.set_cons_zero, Option.some.inj hx]
    | i + 1 =>
      rw [List.getElem?_cons_succ] at hx
      rw [List.set_cons_succ, ih i hx]

theorem toggleAt_id (p : List Nat) (s r : SerieGantt)
    (hget : getAt s p = some r) (hdat : r.data = none) (hhd : r.hdata = none) :
    toggleAt s p = s := by
  induction p generalizing s with
  | nil =>
    have hs : s = r := Option.some.inj hget
    subst hs
    match s, hdat, hhd with
    | .mk n st en k none none, _, _ => simp [toggleAt, toggleRec]
  | cons i p ih =>
    match s with
    | .mk n st en k none hd => simp [getAt] at hget
    | .mk n st en k (some kids0) hd =>
      match hki : kids0[i]? with
      | none => simp [getAt, hki] at hget
      | some ki =>
        have h1 : getAt ki p = some r := by simpa [getAt, hki] using hget
        simp only [toggleAt, hki, ih ki h1]
        rw [set_getElem?_self kids0 i ki hki]

theorem getAt_erase (p : List Nat) (s : SerieGantt) :
    getAt (eraseKeys s) p = (getAt s p).map eraseKeys := by
  induction p generalizing s with
  | nil => simp [getAt]
  | cons i p ih =>
    match s with
    | .mk n st en k none hd => simp [getAt, eraseKeys, eraseKeysO]
    | .mk n st en k (some kids) hd =>
      match hki : kids[i]? with
      | none =>
        have h2 : (eraseKeysL kids)[i]? = none := by simp [eraseKeysL_getElem, hki]
        simp [getAt, eraseKeys, eraseKeysO, hki, h2]
      | some ki =>
        have h2 : (eraseKeysL kids)[i]? = some (eraseKeys ki) := by
          simp [eraseKeysL_getElem, hki]
        simp only [getAt, eraseKeys, eraseKeysO, hki, h2]
        exact ih ki

theorem eraseKeysO_eq_none (o : Option (List SerieGantt)) :
    eraseKeysO o = none ↔ o = none := by
  cases o <;> simp [eraseKeysO]

/-- Claim C8: clicking the bar of a record with no children (both child
pointers absent) has no effect — the flattened list holds the same
underlying records in the same order, and the clicked record's visible and
hidden child pointers both remain unpopulated. -/
theorem claim8_leaf_click (t : SerieGantt) (c : Nat) (p : List Nat)
    (r : SerieGantt) (hc : 1 ≤ c) (hkf : rootKeyFreeB t = true)
    (hget : getAt (stateOf t c).serieSource p = some r)
    (hdat : r.data = none) (hhd : r.hdata = none) :
    flatProj (click (stateOf t c) p).seriesNodes =
      flatProj (stateOf t c).seriesNodes ∧
    ∃ r', getAt (click (stateOf t c) p).serieSource p = some r' ∧
      r'.data = none ∧ r'.hdata = none := by
  simp only [stateOf, click] at hget ⊢
  have htog : toggleAt (ppNode 0 t c).1 p = (ppNode 0 t c).1 :=
    toggleAt_id p _ r hget hdat hhd
  rw [htog]
  have h1 : rootKeyFreeB (ppNode 0 t c).1 = true := ppRoot_keyFree t c hc hkf
  constructor
  · rw [ppRoot_proj _ _ h1, ppRoot_proj _ _ hkf, specRoot_pp]
  · have he : eraseKeys (ppNode 0 (ppNode 0 t c).1 (ppNode 0 t c).2.2).1 =
        eraseKeys (ppNode 0 t c).1 := ppNode_erase 0 _ _
    have h2 : getAt (eraseKeys (ppNode 0 (ppNode 0 t c).1 (ppNode 0 t c).2.2).1) p =
        getAt (eraseKeys (ppNode 0 t c).1) p := by rw [he]
    rw [getAt_erase, getAt_erase, hget] at h2
    rcases Option.map_eq_some'.mp h2 with ⟨r', hr', herase⟩
    refine ⟨r', hr', ?_, ?_⟩
    · have := congrArg SerieGantt.data herase
      rw [erase_data, erase_data, hdat] at this
      exact (eraseKeysO_eq_none _).mp this
    · have := congrArg SerieGantt.hdata herase
      rw [erase_hdata, erase_hdata, hhd] at this
      exact (eraseKeysO_eq_none _).mp this

/-- Claim C8 witness: root wrapping the single childless record B,
clicking B (path `[0]`). -/
theorem claim8_witness :
    (1 ≤ 1 ∧ rootKeyFreeB sampleLeafRoot = true ∧
     getAt (stateOf sampleLeafRoot 1).serieSource [0] = some sampleB1 ∧
     sampleB1.data = none ∧ sampleB1.hdata = none) ∧
    (flatProj (click (stateOf sampleLeafRoot 1) [0]).seriesNodes =
       flatProj (stateOf sampleLeafRoot 1).seriesNodes ∧
     ∃ r', getAt (click (stateOf sampleLeafRoot 1) [0]).serieSource [0] = some r' ∧
       r'.data = none ∧ r'.hdata = none) :=
  ⟨⟨le_rfl, by decide, rfl, rfl, rfl⟩,
   claim8_leaf_click sampleLeafRoot 1 [0] sampleB1 le_rfl (by decide) rfl rfl rfl⟩

/-! ## Heap frame lemmas: the component never writes the caller's records -/

theorem readH_append_left {h t : List RecH} {i : Nat} (hi : i < h.length) :
    readH (h ++ t) i = readH h i := by
  simp [readH, List.getD_eq_getElem?_getD, List.getElem?_append_left hi]

theorem readH_append_self (h : List RecH) (r : RecH) :
    readH (h ++ [r]) h.length = r := by
  simp [readH, List.getD_eq_getElem?_getD, List.getElem?_concat_length]

theorem readH_out {h : List RecH} {i : Nat} (hi : h.length ≤ i) :
    readH h i = hDefault := by
  simp [readH, List.getD_eq_getElem?_getD, List.getElem?_eq_none hi]

theorem readH_set_self {h : List RecH} {a : Nat} (ha : a < h.length)
    (f : RecH → RecH) : readH (setRec h a f) a = f (readH h a) := by
  simp [setRec, readH, List.getD_eq_getElem?_getD,
    List.getElem?_set_self (by simpa using ha)]

theorem readH_set_ne {h : List RecH} {a i : Nat} (f : RecH → RecH)
    (hne : i ≠ a) : readH (setRec h a f) i = readH h i := by
  simp [setRec, readH, List.getD_eq_getElem?_getD,
    List.getElem?_set_ne (Ne.symm hne)]

theorem length_setRec (h : List RecH) (a : Nat) (f : RecH → RecH) :
    (setRec h a f).length = h.length := by
  simp [setRec]

theorem ptrsHi_mono {r : RecH} {n0 m m' : Nat} (h : PtrsHi r n0 m)
    (hm : m ≤ m') : PtrsHi r n0 m' :=
  ⟨fun b hb => ⟨(h.1 b hb).1, lt_of_lt_of_le (h.1 b hb).2 hm⟩,
   fun b hb => ⟨(h.2 b hb).1, lt_of_lt_of_le (h.2 b hb).2 hm⟩⟩

theorem ptrsHi_toggle {r : RecH} {n0 m : Nat} (h : PtrsHi r n0 m) :
    PtrsHi (toggleRecH r) n0 m := by
  rcases h with ⟨h1, h2⟩
  cases hr : r.data with
  | none =>
    refine ⟨?_, ?_⟩
    · simpa [toggleRecH, hr] using h2
    · simp [toggleRecH, hr]
  | some d =>
    refine ⟨?_, ?_⟩
    · simp [toggleRecH, hr]
    · have h1' := hr ▸ h1
      simpa [toggleRecH, hr] using h1'

theorem hiInv_init (h : List RecH) : HiInv h h.length :=
  fun _ hi hlt => absurd hlt (by omega)

theorem hiInv_snoc {h : List RecH} {n0 : Nat} {r : RecH} (hinv : HiInv h n0)
    (hr : PtrsHi r n0 (h.length + 1)) : HiInv (h ++ [r]) n0 := by
  intro i hi hlt
  have hlen : (h ++ [r]).length = h.length + 1 := by simp
  rw [hlen] at hlt
  by_cases hcase : i < h.length
  · rw [readH_append_left hcase, hlen]
    exact ptrsHi_mono (hinv i hi hcase) (by omega)
  · have hieq : i = h.length := by omega
    subst hieq
    rw [readH_append_self, hlen]
    exact hr

theorem hiInv_set {h : List RecH} {n0 a : Nat} {f : RecH → RecH} (ha : n0 ≤ a)
    (hinv : HiInv h n0)
    (hf : ∀ q, PtrsHi q n0 h.length → PtrsHi (f q) n0 h.length) :
    HiInv (setRec h a f) n0 := by
  intro i hi hlt
  rw [length_setRec] at hlt ⊢
  by_cases hia : i = a
  · subst hia
    rw [readH_set_self hlt]
    exact hf _ (hinv i hi hlt)
  · rw [readH_set_ne f hia]
    exact hinv i hi hlt


mutual
theorem cloneA_spec (fuel : Nat) (h : List RecH) (l : List Nat) (n0 : Nat)
    (hn0 : n0 ≤ h.length) (hinv : HiInv h n0) :
    (∃ tail, (cloneA fuel h l).1 = h ++ tail) ∧
    HiInv (cloneA fuel h l).1 n0 ∧
    ∀ b ∈ (cloneA fuel h l).2, n0 ≤ b ∧ b < (cloneA fuel h l).1.length := by
  match fuel, l with
  | fuel, [] =>
    refine ⟨⟨[], by simp [cloneA]⟩, by simpa [cloneA] using hinv, ?_⟩
    simp [cloneA]
  | 0, a :: as =>
    refine ⟨⟨[], by simp [cloneA]⟩, by simpa [cloneA] using hinv, ?_⟩
    simp [cloneA]
  | fuel + 1, a :: as =>
    obtain ⟨⟨t1, ht1⟩, inv1, b1⟩ := cloneO_spec fuel h (readH h a).data n0 hn0 hinv
    have hlen1 : h.length ≤ (cloneO fuel h (readH h a).data).1.length := by
      rw [ht1]; simp
    obtain ⟨⟨t2, ht2⟩, inv2, b2⟩ := cloneO_spec fuel (cloneO fuel h (readH h a).data).1
      (readH h a).hdata n0 (le_trans hn0 hlen1) inv1
    have hlen2 : (cloneO fuel h (readH h a).data).1.length ≤
        (cloneO fuel (cloneO fuel h (readH h a).data).1 (readH h a).hdata).1.length := by
      rw [ht2]; simp
    have hptrs : PtrsHi { readH h a with
        data := (cloneO fuel h (readH h a).data).2,
        hdata := (cloneO fuel (cloneO fuel h (readH h a).data).1 (readH h a).hdata).2 }
        n0 ((cloneO fuel (cloneO fuel h (readH h a).data).1 (readH h a).hdata).1.length + 1) := by
      refine ⟨?_, ?_⟩
      · intro b hb
        have := b1 b hb
        exact ⟨this.1, by omega⟩
      · intro b hb
        have := b2 b hb
        exact ⟨this.1, by omega⟩
    have hinv2 : HiInv ((cloneO fuel (cloneO fuel h (readH h a).data).1
        (readH h a).hdata).1 ++ [{ readH h a with
        data := (cloneO fuel h (readH h a).data).2,
        hdata := (cloneO fuel (cloneO fuel h (readH h a).data).1 (readH h a).hdata).2 }])
        n0 := hiInv_snoc inv2 hptrs
    have hn2 : n0 ≤ ((cloneO fuel (cloneO fuel h (readH h a).data).1
        (readH h a).hdata).1 ++ [{ readH h a with
        data := (cloneO fuel h (readH h a).data).2,
        hdata := (cloneO fuel (cloneO fuel h (readH h a).data).1 (readH h a).hdata).2 }]).length := by
      simp
      omega
    obtain ⟨⟨t3, ht3⟩, inv3, b3⟩ := cloneA_spec (fuel + 1)
      ((cloneO fuel (cloneO fuel h (readH h a).data).1 (readH h a).hdata).1 ++
        [{ readH h a with
           data := (cloneO fuel h (readH h a).data).2,
           hdata := (cloneO fuel (cloneO fuel h (readH h a).data).1 (readH h a).hdata).2 }])
      as n0 hn2 hinv2
    refine ⟨⟨t1 ++ t2 ++ ([{ readH h a with
        data := (cloneO fuel h (readH h a).data).2,
        hdata := (cloneO fuel (cloneO fuel h (readH h a).data).1 (readH h a).hdata).2 }] ++ t3), ?_⟩,
      ?_, ?_⟩
    · show (cloneA (fuel+1) h (a :: as)).1 = _
      rw [cloneA]
      simp only
      rw [ht3, ht2, ht1]
      simp [List.append_assoc]
    · show HiInv (cloneA (fuel+1) h (a :: as)).1 n0
      rw [cloneA]
      simpa only using inv3
    · show ∀ b ∈ (cloneA (fuel+1) h (a :: as)).2, n0 ≤ b ∧
        b < (cloneA (fuel+1) h (a :: as)).1.length
      rw [cloneA]
      simp only
      intro b hb
      rcases List.mem_cons.mp hb with hb | hb
      · subst hb
        constructor
        · omega
        · rw [ht3]
          simp only [List.length_append, List.length_cons, List.length_nil]
          omega
      · exact b3 b hb
termination_by (fuel, l.length, 0)

theorem cloneO_spec (fuel : Nat) (h : List RecH) (o : Option (List Nat)) (n0 : Nat)
    (hn0 : n0 ≤ h.length) (hinv : HiInv h n0) :
    (∃ tail, (cloneO fuel h o).1 = h ++ tail) ∧
    HiInv (cloneO fuel h o).1 n0 ∧
    ∀ b ∈ ((cloneO fuel h o).2).getD [], n0 ≤ b ∧ b < (cloneO fuel h o).1.length := by
  match o with
  | none => exact ⟨⟨[], by simp [cloneO]⟩, by simpa [cloneO] using hinv, by simp [cloneO]⟩
  | some ds =>
    obtain ⟨he, hi2, hb⟩ := cloneA_spec fuel h ds n0 hn0 hinv
    exact ⟨by simpa [cloneO] using he, by simpa [cloneO] using hi2,
      by simpa [cloneO] using hb⟩
termination_by (fuel, osize o, 1)
end

theorem take_setRec {h : List RecH} {a n0 : Nat} (f : RecH → RecH)
    (ha : n0 ≤ a) : (setRec h a f).take n0 = h.take n0 := by
  rw [setRec, List.set_take, List.set_eq_of_length_le]
  simp only [List.length_take]
  omega

theorem hDefault_data : hDefault.data = none := rfl

theorem ppHL_frame (fuel : Nat) (h : List RecH) (l : List Nat) (c : Nat)
    (n0 : Nat) (hinv : HiInv h n0) (hl : ∀ a ∈ l, n0 ≤ a) :
    List.take n0 (ppHL fuel h l c).1 = List.take n0 h ∧
    (ppHL fuel h l c).1.length = h.length ∧
    HiInv (ppHL fuel h l c).1 n0 := by
  match fuel, l with
  | fuel, [] => exact ⟨by simp [ppHL], by simp [ppHL], by simpa [ppHL] using hinv⟩
  | 0, a :: as => exact ⟨by simp [ppHL], by simp [ppHL], by simpa [ppHL] using hinv⟩
  | fuel + 1, a :: as =>
    have ha : n0 ≤ a := hl a (List.mem_cons_self a as)
    have hstep : ∀ hs : List RecH × Nat,
        (hs = (if (readH h a).key = some rootKEY then (h, c)
          else (setRec h a (fun q =>
            { q with key := some c, start := toDate q.start,
                     «end» := toDate q.«end» }), c + 1))) →
        List.take n0 hs.1 = List.take n0 h ∧ hs.1.length = h.length ∧
          HiInv hs.1 n0 := by
      intro hs heq
      by_cases hk : (readH h a).key = some rootKEY
      · rw [heq, if_pos hk]
        exact ⟨rfl, rfl, hinv⟩
      · rw [heq, if_neg hk]
        dsimp only
        refine ⟨take_setRec _ ha, length_setRec h a _, ?_⟩
        exact hiInv_set ha hinv (fun q hq => hq)
    obtain ⟨hs_take, hs_len, hs_inv⟩ := hstep _ rfl
    have hrec : ∀ hr : List RecH × Nat,
        (hr = (match (readH h a).data with
          | none => (if (readH h a).key = some rootKEY then (h, c)
              else (setRec h a (fun q =>
                { q with key := some c, start := toDate q.start,
                         «end» := toDate q.«end» }), c + 1))
          | some ds => ppHL fuel
              (if (readH h a).key = some rootKEY then (h, c)
                else (setRec h a (fun q =>
                  { q with key := some c, start := toDate q.start,
                           «end» := toDate q.«end» }), c + 1)).1 ds
              (if (readH h a).key = some rootKEY then (h, c)
                else (setRec h a (fun q =>
                  { q with key := some c, start := toDate q.start,
                           «end» := toDate q.«end» }), c + 1)).2)) →
        List.take n0 hr.1 = List.take n0 h ∧ hr.1.length = h.length ∧
          HiInv hr.1 n0 := by
      intro hr heq
      match hd : (readH h a).data with
      | none =>
        rw [heq, hd]
        exact ⟨hs_take, hs_len, hs_inv⟩
      | some ds =>
        rw [heq, hd]
        have hds : ∀ b ∈ ds, n0 ≤ b := by
          intro b hb
          by_cases hal : a < h.length
          · have := (hinv a ha hal).1 b (by rw [hd]; exact hb)
            exact this.1
          · have : readH h a = hDefault := readH_out (by omega)
            rw [this, hDefault_data] at hd
            cases hd
        obtain ⟨t1, l1, i1⟩ := ppHL_frame fuel _ ds _ n0 hs_inv hds
        exact ⟨t1.trans hs_take, l1.trans hs_len, i1⟩
    obtain ⟨hr_take, hr_len, hr_inv⟩ := hrec _ rfl
    have has : ∀ b ∈ as, n0 ≤ b := fun b hb => hl b (List.mem_cons_of_mem a hb)
    obtain ⟨t2, l2, i2⟩ := ppHL_frame (fuel + 1) _ as _ n0 hr_inv has
    refine ⟨?_, ?_, ?_⟩
    · show List.take n0 (ppHL (fuel+1) h (a :: as) c).1 = _
      rw [ppHL]
      exact t2.trans hr_take
    · show (ppHL (fuel+1) h (a :: as) c).1.length = _
      rw [ppHL]
      exact l2.trans hr_len
    · show HiInv (ppHL (fuel+1) h (a :: as) c).1 n0
      rw [ppHL]
      exact i2
termination_by (fuel, l.length)

theorem resolveH_hi (p : List Nat) (h : List RecH) (n0 : Nat)
    (hinv : HiInv h n0) : ∀ a b, n0 ≤ a → resolveH h a p = some b → n0 ≤ b := by
  induction p with
  | nil =>
    intro a b ha hres
    have : a = b := Option.some.inj hres
    omega
  | cons i p ih =>
    intro a b ha hres
    match hd : (readH h a).data with
    | none => rw [resolveH, hd] at hres; cases hres
    | some ds =>
      rw [resolveH, hd] at hres
      dsimp only at hres
      match hdi : ds[i]? with
      | none => rw [hdi] at hres; cases hres
      | some b' =>
        rw [hdi] at hres
        have hb' : n0 ≤ b' := by
          by_cases hal : a < h.length
          · exact ((hinv a ha hal).1 b' (by rw [hd]; exact List.getElem?_mem hdi)).1
          · have : readH h a = hDefault := readH_out (by omega)
            rw [this, hDefault_data] at hd
            cases hd
        exact ih b' b hb' hres

theorem clickH_frame (fuel : Nat) (h : List RecH) (rootA : Nat) (p : List Nat)
    (c : Nat) (n0 : Nat) (hinv : HiInv h n0) (hroot : n0 ≤ rootA) :
    List.take n0 (clickH fuel h rootA p c).1 = List.take n0 h ∧
    (clickH fuel h rootA p c).1.length = h.length ∧
    HiInv (clickH fuel h rootA p c).1 n0 := by
  match hres : resolveH h rootA p with
  | none => exact ⟨by simp [clickH, hres], by simp [clickH, hres],
      by simpa [clickH, hres] using hinv⟩
  | some a =>
    have ha : n0 ≤ a := resolveH_hi p h n0 hinv rootA a hroot hres
    have hinv' : HiInv (setRec h a toggleRecH) n0 :=
      hiInv_set ha hinv (fun q hq => ptrsHi_toggle hq)
    have hlen' : (setRec h a toggleRecH).length = h.length := length_setRec h a _
    obtain ⟨t1, l1, i1⟩ := ppHL_frame fuel (setRec h a toggleRecH) [rootA] c n0
      hinv' (by intro b hb; rcases List.mem_singleton.mp hb with rfl; exact hroot)
    refine ⟨?_, ?_, ?_⟩
    · show List.take n0 (clickH fuel h rootA p c).1 = _
      rw [clickH, hres]
      exact t1.trans (take_setRec _ ha)
    · show (clickH fuel h rootA p c).1.length = _
      rw [clickH, hres]
      exact l1.trans hlen'
    · show HiInv (clickH fuel h rootA p c).1 n0
      rw [clickH, hres]
      exact i1

theorem clicksH_frame (fuel : Nat) (ps : List (List Nat)) :
    ∀ (h : List RecH) (rootA c n0 : Nat), HiInv h n0 → n0 ≤ rootA →
    List.take n0 (clicksH fuel (h, rootA, c) ps).1 = List.take n0 h ∧
    HiInv (clicksH fuel (h, rootA, c) ps).1 n0 := by
  induction ps with
  | nil => intro h rootA c n0 hinv hroot; exact ⟨rfl, hinv⟩
  | cons p ps ih =>
    intro h rootA c n0 hinv hroot
    obtain ⟨t1, _, i1⟩ := clickH_frame fuel h rootA p c n0 hinv hroot
    obtain ⟨t2, i2⟩ := ih (clickH fuel h rootA p c).1 rootA
      (clickH fuel h rootA p c).2 n0 i1 hroot
    exact ⟨by rw [clicksH]; exact t2.trans t1, by rw [clicksH]; exact i2⟩

/-- Claim C10: setting the Gantt `series` input deep-clones the caller's
records before wrapping them in the synthetic root, so the initial flatten
pass and every subsequent collapse/expand click (each of which re-keys,
re-dates and re-points records in place, through the heap) only ever write
to the freshly allocated copies: the caller's original records — the heap
prefix `h0` — are untouched by any such sequence of operations. -/
theorem claim10_caller_records_preserved (fuel : Nat) (h0 : List RecH)
    (l : List Nat) (c : Nat) (ps : List (List Nat)) :
    List.take h0.length (clicksH fuel (setSeriesH fuel h0 l c) ps).1 = h0 := by
  obtain ⟨⟨t1, ht1⟩, inv1, b1⟩ := cloneA_spec fuel h0 l h0.length le_rfl
    (hiInv_init h0)
  have hlen1 : h0.length ≤ (cloneA fuel h0 l).1.length := by rw [ht1]; simp
  have hptrs : PtrsHi (⟨"root", 0, 0, some rootKEY, some (cloneA fuel h0 l).2, none⟩ : RecH)
      h0.length ((cloneA fuel h0 l).1.length + 1) := by
    refine ⟨?_, ?_⟩
    · intro b hb
      have := b1 b (by simpa using hb)
      exact ⟨this.1, by omega⟩
    · intro b hb
      simp at hb
  have inv2 : HiInv ((cloneA fuel h0 l).1 ++
      [⟨"root", 0, 0, some rootKEY, some (cloneA fuel h0 l).2, none⟩]) h0.length :=
    hiInv_snoc inv1 hptrs
  obtain ⟨t3, l3, i3⟩ := ppHL_frame fuel
    ((cloneA fuel h0 l).1 ++ [⟨"root", 0, 0, some rootKEY, some (cloneA fuel h0 l).2, none⟩])
    [(cloneA fuel h0 l).1.length] c h0.length inv2
    (by intro b hb; rcases List.mem_singleton.mp hb with rfl; exact hlen1)
  obtain ⟨t4, _⟩ := clicksH_frame fuel ps
    (ppHL fuel ((cloneA fuel h0 l).1 ++
      [⟨"root", 0, 0, some rootKEY, some (cloneA fuel h0 l).2, none⟩])
      [(cloneA fuel h0 l).1.length] c).1
    (cloneA fuel h0 l).1.length
    (ppHL fuel ((cloneA fuel h0 l).1 ++
      [⟨"root", 0, 0, some rootKEY, some (cloneA fuel h0 l).2, none⟩])
      [(cloneA fuel h0 l).1.length] c).2
    h0.length i3 hlen1
  show List.take h0.length (clicksH fuel (setSeriesH fuel h0 l c) ps).1 = h0
  rw [setSeriesH]
  rw [t4, t3, ht1, List.append_assoc]
  exact List.take_left h0 _
